import Mathlib

/-!
# Verification of the graph-view core of obsidian-neo4j-graph-view

Shallow embedding of src/neo4j-graph-view/viz/visualization.ts:
the identity scheme (VizId), the incremental merge engine (mergeToGraph),
selection operations, node removal, expansion, the data-store fetch loops,
and the hover-preview timeout machinery.

Graph elements are modelled as records with an id, a group flag, endpoints
for edges, a data map (JavaScript object: association list, first
occurrence read, keys unique in well-formed objects), a class list and a
selected flag.  Cytoscape collection operations used by the source
(classes replacement, addClass, data field-wise update, add with
duplicate-id and missing-endpoint skipping, nodes-before-edges ordering
inside a single add call) are modelled after the documented cytoscape
semantics the source relies on.
-/

/-! ## Identity scheme (VizId) -/

/-- JavaScript s.split(c): splits on every occurrence of c. -/
def splitOnChar (c : Char) : List Char → List (List Char)
  | [] => [[]]
  | x :: xs =>
    match splitOnChar c xs with
    | [] => [[]]
    | acc :: rest => if x = c then [] :: acc :: rest else (x :: acc) :: rest

/-- JavaScript parts.join(c). -/
def jsJoin (c : Char) : List (List Char) → List Char
  | [] => []
  | [x] => x
  | x :: y :: r => x ++ c :: jsJoin c (y :: r)

structure VizId where
  id : String
  storeId : String
deriving DecidableEq, Repr

/-- VizId.toString: storeId + ":" + id. -/
def VizId.toString (v : VizId) : String :=
  v.storeId ++ ":" ++ v.id

/-- VizId.toId is an alias of VizId.toString in the source. -/
def VizId.toId (v : VizId) : String :=
  v.toString

/-- VizId.fromId: split on ':', storeId is split[0], id is split.slice(1).join(':'). -/
def VizId.fromId (s : String) : VizId :=
  let split := splitOnChar ':' s.data
  { id := ⟨jsJoin ':' (split.drop 1)⟩, storeId := ⟨split.headD []⟩ }

/-! ## Graph element model -/

/-- Values held in a cytoscape element's data object. -/
inductive DVal where
  | str : String → DVal
  | num : Nat → DVal
deriving DecidableEq, Repr

/-- A JavaScript object as an association list; reads take the first occurrence
(keys are unique in an actual object). -/
abbrev DataMap := List (String × DVal)

/-- Read a data field (first occurrence). -/
def dataGet : DataMap → String → Option DVal
  | [], _ => none
  | (k2, v) :: rest, k => if k2 = k then some v else dataGet rest k

/-- ele.data(key, value): overwrite the field in place, append if absent. -/
def dataSet : DataMap → String → DVal → DataMap
  | [], k, v => [(k, v)]
  | (k2, v2) :: rest, k, v =>
    if k2 = k then (k, v) :: rest else (k2, v2) :: dataSet rest k v

/-- ele.data(obj): field-wise update with every field of the incoming object
(cytoscape updates the given fields and keeps all others). -/
def dataUpdate (d : DataMap) (ps : DataMap) : DataMap :=
  ps.foldl (fun acc p => dataSet acc p.1 p.2) d

/-- Last-occurrence association lookup: the value that ele.data(obj) ends up
writing for a key when the list is replayed left to right. -/
def lookAssoc : DataMap → String → Option DVal
  | [], _ => none
  | (k2, v) :: rest, k =>
    match lookAssoc rest k with
    | some w => some w
    | none => if k2 = k then some v else none

/-- The field value visible after a field-wise update of old with incoming. -/
def jsMergedGet (incoming old : DataMap) (k : String) : Option DVal :=
  match lookAssoc incoming k with
  | some v => some v
  | none => dataGet old k

/-- ele.addClass(c). -/
def addClassL (cs : List String) (c : String) : List String :=
  if c ∈ cs then cs else cs ++ [c]

/-- A live cytoscape element: node or edge. -/
structure GraphElemState where
  id : String
  isEdge : Bool
  source : String
  target : String
  data : DataMap
  classes : List String
  selected : Bool
deriving DecidableEq, Repr

/-- The live graph (cytoscape core): element list in insertion order. -/
abbrev Graph := List GraphElemState

/-- An ElementDefinition handed to cy.add / mergeToGraph: data record plus
classes; an edge definition carries source and target. -/
structure ElementDefinition where
  id : String
  source : Option String := none
  target : Option String := none
  data : DataMap := []
  classes : List String := []
  selected : Bool := false
deriving DecidableEq, Repr

/-- viz.$id(i).length different from 0. -/
def byIdPresent (g : Graph) (i : String) : Bool :=
  g.any (fun e => e.id == i)

/-- There is a node with this id in the graph. -/
def isNodeIn (g : Graph) (i : String) : Bool :=
  g.any (fun e => !e.isEdge && e.id == i)

/-- The class list after the update branch of mergeToGraph: remember the
protected classes (expanded, pinned), replace the class list by the incoming
one, re-add the protected classes; afterwards, when the element is a node in
the current expanded set, addClass expanded once more. -/
def updClasses (e : GraphElemState) (n : ElementDefinition) : List String :=
  let cls := ((if "expanded" ∈ e.classes then ["expanded"] else []) ++
              (if "pinned" ∈ e.classes then ["pinned"] else [])).foldl addClassL n.classes
  if !e.isEdge && "expanded" ∈ cls then addClassL cls "expanded" else cls

/-- The update branch of mergeToGraph for an element already in the graph:
classes replaced as above, data updated field-wise with the incoming data. -/
def updateElem (e : GraphElemState) (n : ElementDefinition) : GraphElemState :=
  { e with classes := updClasses e n, data := dataUpdate e.data n.data }

/-- The forEach loop of mergeToGraph: elements already present are updated in
place at once; the rest are staged (addElements) for a single add at the end. -/
def mergeScan : Graph → List ElementDefinition → Graph × List ElementDefinition
  | g, [] => (g, [])
  | g, n :: L =>
    if byIdPresent g n.id then
      mergeScan (g.map (fun e => if e.id = n.id then updateElem e n else e)) L
    else
      let r := mergeScan g L
      (r.1, n :: r.2)

/-- The effect of the scan on one element: its matching records applied in order. -/
def applyDefs (e : GraphElemState) : List ElementDefinition → GraphElemState
  | [] => e
  | n :: L => if e.id = n.id then applyDefs (updateElem e n) L else applyDefs e L

/-- A definition without a source is a node definition. -/
def defIsNode (n : ElementDefinition) : Bool :=
  n.source.isNone

/-- The element created by cy.add for a definition. -/
def defToElem (n : ElementDefinition) : GraphElemState :=
  { id := n.id, isEdge := n.source.isSome, source := n.source.getD "",
    target := n.target.getD "", data := n.data, classes := n.classes,
    selected := n.selected }

def endpointOk (g : Graph) : Option String → Bool
  | some s => isNodeIn g s
  | none => false

/-- cy.add skips an element whose id already exists and an edge whose source or
target is not an existing node. -/
def canAddDef (g : Graph) (n : ElementDefinition) : Bool :=
  !byIdPresent g n.id && (defIsNode n || (endpointOk g n.source && endpointOk g n.target))

def addDefsSeq : Graph → List ElementDefinition → Graph
  | g, [] => g
  | g, n :: L =>
    if canAddDef g n then addDefsSeq (g ++ [defToElem n]) L else addDefsSeq g L

/-- cy.add on a list: nodes are created before edges. -/
def addDefs (g : Graph) (defs : List ElementDefinition) : Graph :=
  addDefsSeq (addDefsSeq g (defs.filter defIsNode)) (defs.filter (fun n => !defIsNode n))

/-- node.degree(false): incident non-loop edge ends. -/
def degreeOf (g : Graph) (i : String) : Nat :=
  g.countP (fun e => e.isEdge && !(e.source == e.target) && (e.source == i || e.target == i))

/-- node.data('name').length as used by onGraphChanged. -/
def nameLenOf (d : DataMap) : Nat :=
  match dataGet d "name" with
  | some (DVal.str s) => s.length
  | _ => 0

/-- onGraphChanged recomputes the derived degree and nameLength data fields of
every node. -/
def graphChangedElem (g : Graph) (e : GraphElemState) : GraphElemState :=
  if e.isEdge then e
  else { e with data := dataSet (dataSet e.data "degree" (DVal.num (degreeOf g e.id)))
                                "nameLength" (DVal.num (nameLenOf e.data)) }

def onGraphChanged (g : Graph) : Graph :=
  g.map (graphChangedElem g)

/-- mergeToGraph: update existing elements in place preserving the protected
classes, add the genuinely new elements in one batch, then recompute derived
metrics.  The batching flag of the source only scopes notifications and the
returned merged collection is not modelled; the resulting graph state is. -/
def mergeToGraph (g : Graph) (elements : List ElementDefinition) : Graph :=
  let r := mergeScan g elements
  onGraphChanged (addDefs r.1 r.2)

/-- The pinned and expanded node of the spec scenario. -/
def nodeA : GraphElemState :=
  { id := "core:A", isEdge := false, source := "", target := "",
    data := [("name", DVal.str "A")], classes := ["pinned", "expanded"],
    selected := false }

/-- The re-fetched record of the spec scenario, carrying only a visited tag. -/
def recA : ElementDefinition :=
  { id := "core:A", data := [("name", DVal.str "A")], classes := ["visited"] }

def nodeX : GraphElemState :=
  { id := "x", isEdge := false, source := "", target := "",
    data := [("name", DVal.str "x"), ("foo", DVal.str "bar")], classes := [],
    selected := false }

def recX : ElementDefinition :=
  { id := "x", data := [("name", DVal.str "y")], classes := [] }

/-! ## Selection operations -/

/-- selectAll: this.viz.nodes().select() selects every node; edges untouched. -/
def selectAll (g : Graph) : Graph :=
  g.map (fun e => if e.isEdge then e else { e with selected := true })

/-- invertSelection: unselect the selected collection, then select its absolute
complement, which ranges over all elements, edges included. -/
def invertSelection (g : Graph) : Graph :=
  g.map (fun e => { e with selected := !e.selected })

/-- The ':selected' collection. -/
def selectedElems (g : Graph) : Graph :=
  g.filter (fun e => e.selected)

def cexNodeA : GraphElemState :=
  { id := "a", isEdge := false, source := "", target := "", data := [],
    classes := [], selected := false }

def cexNodeB : GraphElemState :=
  { id := "b", isEdge := false, source := "", target := "", data := [],
    classes := [], selected := false }

def cexEdgeAB : GraphElemState :=
  { id := "ab", isEdge := true, source := "a", target := "b", data := [],
    classes := [], selected := false }

/-! ## Node removal -/

/-- Two node ids are adjacent when some edge of the graph connects them. -/
def adjacentIn (g : Graph) (a b : String) : Bool :=
  g.any (fun e =>
    e.isEdge && ((e.source == a && e.target == b) || (e.source == b && e.target == a)))

/-- Membership in getExpanded: a node carrying the expanded class. -/
def isExpandedNode (e : GraphElemState) : Bool :=
  !e.isEdge && e.classes.contains "expanded"

/-- getExpanded: this.viz.nodes('.expanded'). -/
def getExpanded (g : Graph) : Graph :=
  g.filter isExpandedNode

/-- getPinned: this.viz.nodes('.pinned'). -/
def getPinned (g : Graph) : Graph :=
  g.filter (fun e => !e.isEdge && e.classes.contains "pinned")

/-- One element under getExpanded().intersection(nodes.neighborhood())
.removeClass('expanded'): an expanded node in the open neighborhood of the
removed node set loses the expanded class. -/
def removeClearElem (g : Graph) (S : List String) (e : GraphElemState) :
    GraphElemState :=
  if isExpandedNode e && S.any (fun s => !(s == e.id) && adjacentIn g e.id s) then
    { e with classes := e.classes.filter (fun c => !(c == "expanded")) }
  else e

/-- removeNodes: expanded nodes lying in the open neighborhood of the removed
set lose the expanded class; then the removed nodes and their connected edges
are deleted.  The restartLayout call does not change the graph state. -/
def removeNodes (g : Graph) (S : List String) : Graph :=
  (g.map (removeClearElem g S)).filter (fun e =>
    if e.isEdge then !(S.contains e.source || S.contains e.target)
    else !(S.contains e.id))

def nodeBr : GraphElemState :=
  { id := "B", isEdge := false, source := "", target := "",
    data := [("name", DVal.str "B")], classes := ["expanded"], selected := false }

def nodeCr : GraphElemState :=
  { id := "C", isEdge := false, source := "", target := "",
    data := [("name", DVal.str "C")], classes := [], selected := false }

def edgeBCr : GraphElemState :=
  { id := "B-C", isEdge := true, source := "B", target := "C", data := [],
    classes := [], selected := false }

/-! ## Data stores, neighbourhood fetch, expand -/

/-- A registered data-store provider; the async methods either resolve with
records or reject with an error message. -/
structure DataStore where
  storeIdVal : String
  getNeighbourhood : List VizId → Except String (List ElementDefinition)
  connectNodes : List GraphElemState → List GraphElemState →
    Except String (List ElementDefinition)

/-- neighbourhood: awaits every store in registration order and concatenates
the results; there is no try/catch, so an awaited rejection rejects the whole
loop and no partial result is returned. -/
def neighbourhood : List DataStore → List VizId →
    Except String (List ElementDefinition)
  | [], _ => Except.ok []
  | s :: ss, ids =>
    match s.getNeighbourhood ids with
    | Except.error e => Except.error e
    | Except.ok ns =>
      match neighbourhood ss ids with
      | Except.error e => Except.error e
      | Except.ok rest => Except.ok (ns ++ rest)

/-- buildEdges: store.connectNodes(this.viz.nodes(), newNodes) for every store
in order, concatenated; again a rejection rejects the whole loop. -/
def buildEdges : List DataStore → Graph → List GraphElemState →
    Except String (List ElementDefinition)
  | [], _, _ => Except.ok []
  | s :: ss, g, newNodes =>
    match s.connectNodes (g.filter (fun e => !e.isEdge)) newNodes with
    | Except.error e => Except.error e
    | Except.ok es =>
      match buildEdges ss g newNodes with
      | Except.error e => Except.error e
      | Except.ok rest => Except.ok (es ++ rest)

/-- toExpand.addClass('expanded') for a node collection given by ids. -/
def addClassAllNodes (g : Graph) (ids : List String) (c : String) : Graph :=
  g.map (fun e =>
    if !e.isEdge && ids.contains e.id then { e with classes := addClassL e.classes c }
    else e)

/-- Membership of an element in the closed neighborhood of the node set N. -/
def inClosedNbhd (g : Graph) (N : List String) (e : GraphElemState) : Bool :=
  if e.isEdge then N.contains e.source || N.contains e.target
  else N.contains e.id || N.any (fun s => adjacentIn g e.id s)

/-- A node connected to an edge incident to the node set N. -/
def connectedToSet (g : Graph) (N : List String) (x : String) : Bool :=
  g.any (fun e =>
    e.isEdge && (N.contains e.source || N.contains e.target) &&
      (e.source == x || e.target == x))

def uafClear (e : GraphElemState) : GraphElemState :=
  { e with classes := e.classes.filter (fun c =>
      !(c == "connected-active-file") && !(c == "active-file") &&
        !(c == "inactive-file")) }

def uafInactive (g : Graph) (N : List String) (e : GraphElemState) :
    GraphElemState :=
  if inClosedNbhd g N e then e
  else { e with classes := addClassL e.classes "inactive-file" }

def uafActive (N : List String) (e : GraphElemState) : GraphElemState :=
  if !e.isEdge && N.contains e.id then
    { e with classes := addClassL e.classes "active-file" }
  else e

def uafConnEdge (N : List String) (e : GraphElemState) : GraphElemState :=
  if e.isEdge && (N.contains e.source || N.contains e.target) then
    { e with classes := addClassL e.classes "connected-active-file" }
  else e

def uafConnNode (g : Graph) (N : List String) (e : GraphElemState) :
    GraphElemState :=
  if !e.isEdge && connectedToSet g N e.id then
    { e with classes := addClassL e.classes "connected-active-file" }
  else e

/-- updateActiveFile: strip the three active-file classes everywhere, tag
everything outside the closed neighborhood inactive, tag the node set active,
tag its connected edges and their endpoints connected; the optional viewport
animation and one-shot tap listener have no graph-state effect. -/
def updateActiveFile (g : Graph) (N : List String) : Graph :=
  ((((g.map uafClear).map (uafInactive g N)).map (uafActive N)).map
    (uafConnEdge N)).map (uafConnNode g N)

/-- The collection built in expand by merging viz.$id of every fetched record
id (collection merge deduplicates). -/
def mergedNodeCollection (g1 : Graph) (nbhd : List ElementDefinition) :
    List GraphElemState :=
  ((nbhd.map (fun n => n.id)).eraseDups).filterMap
    (fun i => g1.find? (fun e => e.id == i))

/-- expand: fetch the neighbourhood for the node set's identities, merge the
records, compute edges for (current nodes, newly present subset), merge the
edges, restart layout (no state effect), tag the node set expanded, and run
updateActiveFile without animation.  The source returns the merged edge
collection; the resulting graph state is modelled. -/
def expand (stores : List DataStore) (g : Graph) (toExpand : List String) :
    Except String Graph :=
  match neighbourhood stores (toExpand.map VizId.fromId) with
  | Except.error e => Except.error e
  | Except.ok nbhd =>
    let g1 := mergeToGraph g nbhd
    match buildEdges stores g1 (mergedNodeCollection g1 nbhd) with
    | Except.error e => Except.error e
    | Except.ok edges =>
      let g2 := mergeToGraph g1 edges
      Except.ok (updateActiveFile (addClassAllNodes g2 toExpand "expanded") toExpand)

/-! ## C3: provider failure aborts the whole fetch -/

def failStore : DataStore :=
  { storeIdVal := "failing",
    getNeighbourhood := fun _ => Except.error "provider rejected",
    connectNodes := fun _ _ => Except.error "provider rejected" }

def okStore : DataStore :=
  { storeIdVal := "core",
    getNeighbourhood := fun _ =>
      Except.ok [{ id := "core:Home", data := [("name", DVal.str "Home")] }],
    connectNodes := fun _ _ => Except.ok [] }

def homeNode : GraphElemState :=
  { id := "core:Home", isEdge := false, source := "", target := "",
    data := [("name", DVal.str "Home")], classes := [], selected := false }

def recHome : ElementDefinition :=
  { id := "core:Home", data := [("name", DVal.str "Home")] }

def recB7 : ElementDefinition :=
  { id := "core:B", data := [("name", DVal.str "B")] }

def recHB : ElementDefinition :=
  { id := "core:Home-B", source := some "core:Home", target := some "core:B" }

def wStore : DataStore :=
  { storeIdVal := "core",
    getNeighbourhood := fun _ => Except.ok [recHome, recB7],
    connectNodes := fun _ _ => Except.ok [recHB] }

/-! ## Hover-preview timeout machinery -/

/-- Pointer events relevant to the hover-preview delayed tasks, plus the
delivery of a scheduled timeout. -/
inductive HEvent where
  | mouseover : String → HEvent
  | mouseout : String → HEvent
  | fire : Nat → HEvent
deriving DecidableEq, Repr

/-- The hover machinery state: the hoverTimeout record (element id to stored
handle, an entry set to undefined modelled as none), the live timeouts
(scheduled, not cleared, not yet delivered) with their element, the opened
preview popups, and a fresh-handle counter. -/
structure HoverState where
  timeouts : List (String × Option Nat)
  live : List (Nat × String)
  popups : List (Nat × String)
  next : Nat
deriving DecidableEq, Repr

def hInit : HoverState := { timeouts := [], live := [], popups := [], next := 0 }

def lookupTimeout : List (String × Option Nat) → String → Option (Option Nat)
  | [], _ => none
  | (j, w) :: rest, i => if j = i then some w else lookupTimeout rest i

def setTimeoutEntry : List (String × Option Nat) → String → Option Nat →
    List (String × Option Nat)
  | [], i, v => [(i, v)]
  | (j, w) :: rest, i, v =>
    if j = i then (i, v) :: rest else (j, w) :: setTimeoutEntry rest i v

/-- One step of the handlers: mouseover stores a fresh setTimeout handle in
hoverTimeout WITHOUT clearing any previous one; mouseout clears the stored
handle when the id is a key of the record and sets the entry to undefined
(clearTimeout of undefined or of an already-fired handle is a no-op); a fire
delivers a live timeout and opens its popup unconditionally. -/
def hStep (s : HoverState) : HEvent → Option HoverState
  | HEvent.mouseover i =>
    some { s with timeouts := setTimeoutEntry s.timeouts i (some s.next),
                  live := s.live ++ [(s.next, i)],
                  next := s.next + 1 }
  | HEvent.mouseout i =>
    match lookupTimeout s.timeouts i with
    | none => some s
    | some none => some { s with timeouts := setTimeoutEntry s.timeouts i none }
    | some (some t) =>
      some { s with timeouts := setTimeoutEntry s.timeouts i none,
                    live := s.live.filter (fun p => !(p.1 == t)) }
  | HEvent.fire t =>
    match s.live.find? (fun p => p.1 == t) with
    | none => none
    | some p =>
      some { s with live := s.live.filter (fun q => !(q.1 == t)),
                    popups := s.popups ++ [(t, p.2)] }

def hRun : HoverState → List HEvent → Option HoverState
  | s, [] => some s
  | s, e :: tr =>
    match hStep s e with
    | some s2 => hRun s2 tr
    | none => none

/-- Pointer-event admissibility: between two mouseovers of one element the
pointer leaves it first (the DOM delivers mouseout before any re-hover). -/
def admissibleFrom (hov : List String) : List HEvent → Bool
  | [] => true
  | HEvent.mouseover i :: tr => !hov.contains i && admissibleFrom (i :: hov) tr
  | HEvent.mouseout i :: tr => admissibleFrom (hov.filter (fun j => !(j == i))) tr
  | HEvent.fire _ :: tr => admissibleFrom hov tr

/-- Number of live (pending) preview tasks for one element. -/
def countL (l : List (Nat × String)) (i : String) : Nat :=
  (l.filter (fun p => p.2 == i)).length

def countLive (s : HoverState) (i : String) : Nat :=
  countL s.live i

/-- Invariant tying pending tasks to the pointer state: an element the pointer
is not over has no pending task, every element has at most one, and every live
task handle is the one its hoverTimeout entry stores. -/
def hovInv (hov : List String) (s : HoverState) : Prop :=
  ∀ i, (i ∉ hov → countLive s i = 0) ∧ countLive s i ≤ 1 ∧
    (∀ p ∈ s.live, p.2 = i → lookupTimeout s.timeouts i = some (some p.1))

/-- A handle that is out of the system: not live, never fired, and in the past
of the fresh counter.  Such a handle can never fire later. -/
def tokenGone (t : Nat) (s : HoverState) : Prop :=
  (∀ p ∈ s.live, ¬ p.1 = t) ∧ (∀ p ∈ s.popups, ¬ p.1 = t) ∧ t < s.next

/-- Handles in reachable states are fresh-bounded and a handle is never both
live and already fired. -/
def hReachInv (s : HoverState) : Prop :=
  (∀ p ∈ s.live, p.1 < s.next) ∧ (∀ p ∈ s.popups, p.1 < s.next) ∧
  (∀ p ∈ s.live, ∀ q ∈ s.popups, ¬ p.1 = q.1)

/-- Observational equality of elements: same identity, group, endpoints and
selection, same tag set, and extensionally equal data maps. -/
def ElemSim (a b : GraphElemState) : Prop :=
  a.id = b.id ∧ a.isEdge = b.isEdge ∧ a.source = b.source ∧ a.target = b.target ∧
  a.selected = b.selected ∧ (∀ c, c ∈ a.classes ↔ c ∈ b.classes) ∧
  (∀ k, dataGet a.data k = dataGet b.data k)

/-- The updated pre-existing elements of a merge. -/
def mergeU (g : Graph) (L : List ElementDefinition) : Graph :=
  g.map (fun e => applyDefs e L)

/-- The staged records of a merge (identity absent from the graph). -/
def mergeS (g : Graph) (L : List ElementDefinition) : List ElementDefinition :=
  L.filter (fun n => !byIdPresent g n.id)

/-- The staged node records, added unconditionally in the node phase. -/
def nodeAddsOf (g : Graph) (L : List ElementDefinition) : Graph :=
  ((mergeS g L).filter defIsNode).map defToElem

def stage1Of (g : Graph) (L : List ElementDefinition) : Graph :=
  mergeU g L ++ nodeAddsOf g L

/-- The staged edge records whose endpoints are nodes after the node phase. -/
def edgeAddsOf (g : Graph) (L : List ElementDefinition) : Graph :=
  (((mergeS g L).filter (fun n => !defIsNode n)).filter (fun n =>
    endpointOk (stage1Of g L) n.source && endpointOk (stage1Of g L) n.target)).map
    defToElem

def mergeAOf (g : Graph) (L : List ElementDefinition) : Graph :=
  stage1Of g L ++ edgeAddsOf g L

def recW1 : ElementDefinition :=
  { id := "w1", data := [("name", DVal.str "W")], classes := ["node"] }

def recWE : ElementDefinition :=
  { id := "we", source := some "w1", target := some "w1",
    data := [("ctx", DVal.str "c")], classes := ["type-link"] }

theorem splitOnChar_ne_nil (c : Char) (s : List Char) : splitOnChar c s ≠ [] := by
  cases s with
  | nil => simp [splitOnChar]
  | cons x xs =>
    simp only [splitOnChar]
    cases splitOnChar c xs with
    | nil => simp
    | cons acc rest =>
      by_cases h : x = c <;> simp [h]

theorem splitOnChar_no_sep (c : Char) (s : List Char) (h : c ∉ s) :
    splitOnChar c s = [s] := by
  induction s with
  | nil => rfl
  | cons x xs ih =>
    have hx : ¬ x = c := fun he => h (he ▸ List.mem_cons_self x xs)
    have hxs : c ∉ xs := fun hm => h (List.mem_cons_of_mem x hm)
    simp only [splitOnChar, ih hxs]
    simp [hx]

theorem splitOnChar_append_sep (c : Char) (s t : List Char) (h : c ∉ s) :
    splitOnChar c (s ++ c :: t) = s :: splitOnChar c t := by
  induction s with
  | nil =>
    simp only [List.nil_append, splitOnChar]
    cases hs : splitOnChar c t with
    | nil => exact absurd hs (splitOnChar_ne_nil c t)
    | cons acc rest => simp
  | cons x xs ih =>
    have hx : ¬ x = c := fun he => h (he ▸ List.mem_cons_self x xs)
    have hxs : c ∉ xs := fun hm => h (List.mem_cons_of_mem x hm)
    simp only [List.cons_append, splitOnChar, List.append_eq]
    rw [ih hxs]
    simp [hx]

theorem jsJoin_splitOnChar (c : Char) (t : List Char) :
    jsJoin c (splitOnChar c t) = t := by
  induction t with
  | nil => rfl
  | cons x xs ih =>
    simp only [splitOnChar]
    cases hs : splitOnChar c xs with
    | nil => exact absurd hs (splitOnChar_ne_nil c xs)
    | cons acc rest =>
      rw [hs] at ih
      by_cases hx : x = c
      · subst hx
        simp only [if_pos rfl]
        cases rest with
        | nil => simpa [jsJoin] using congrArg (x :: ·) ih
        | cons r rs => simpa [jsJoin] using congrArg (x :: ·) ih
      · simp only [if_neg hx]
        cases rest with
        | nil => simpa [jsJoin] using congrArg (x :: ·) ih
        | cons r rs =>
          simp only [jsJoin] at ih ⊢
          rw [← ih]
          simp

/-- C2 (amended): the round-trip decode(encode(localId, storeId)) = (localId, storeId)
holds for every localId, including localId containing the separator, provided storeId
itself contains no separator character. -/
theorem vizId_roundtrip (v : VizId) (h : ':' ∉ v.storeId.data) :
    VizId.fromId (VizId.toString v) = v := by
  obtain ⟨⟨lid⟩, ⟨sid⟩⟩ := v
  simp only [VizId.fromId, VizId.toString]
  have hdata : (String.mk sid ++ ":" ++ String.mk lid).data = sid ++ ':' :: lid := by
    simp [String.data_append]
  rw [hdata, splitOnChar_append_sep ':' sid lid h]
  simp [jsJoin_splitOnChar]

/-- C2 (counterexample): when the storeId contains the separator, the round-trip fails:
encoding (localId = "c", storeId = "a:b") gives "a:b:c", which decodes to
(localId = "b:c", storeId = "a"). -/
theorem vizId_roundtrip_cex :
    VizId.fromId (VizId.toString ⟨"c", "a:b"⟩) ≠ ⟨"c", "a:b"⟩ ∧
    VizId.fromId (VizId.toString ⟨"c", "a:b"⟩) = ⟨"b:c", "a"⟩ := by
  constructor
  · decide
  · decide

theorem vizId_roundtrip_witness :
    ':' ∉ ("core" : String).data ∧
    VizId.fromId (VizId.toString ⟨"a:b.md", "core"⟩) = ⟨"a:b.md", "core"⟩ :=
  ⟨by decide, vizId_roundtrip ⟨"a:b.md", "core"⟩ (by decide)⟩

/-- C10: decoding a string with no ':' separator yields storeId = the whole input and
localId = "", so decode is total on all strings. -/
theorem vizId_fromId_no_sep (s : String) (h : ':' ∉ s.data) :
    VizId.fromId s = ⟨"", s⟩ := by
  obtain ⟨l⟩ := s
  simp only [VizId.fromId, splitOnChar_no_sep ':' l h]
  rfl

theorem vizId_fromId_no_sep_witness :
    ':' ∉ ("Home" : String).data ∧ VizId.fromId "Home" = ⟨"", "Home"⟩ :=
  ⟨by decide, vizId_fromId_no_sep "Home" (by decide)⟩

/-! ## Basic lemmas about data maps and classes -/

theorem mem_addClassL (cs : List String) (c a : String) :
    a ∈ addClassL cs c ↔ a ∈ cs ∨ a = c := by
  by_cases h : c ∈ cs
  · simp only [addClassL, if_pos h]
    exact ⟨Or.inl, fun x => x.elim id (fun hh => hh ▸ h)⟩
  · simp [addClassL, h]

theorem addClassL_of_mem {cs : List String} {c : String} (h : c ∈ cs) :
    addClassL cs c = cs := by
  simp [addClassL, h]

theorem dataGet_dataSet_self (d : DataMap) (k : String) (v : DVal) :
    dataGet (dataSet d k v) k = some v := by
  induction d with
  | nil => simp [dataSet, dataGet]
  | cons p rest ih =>
    obtain ⟨k2, v2⟩ := p
    by_cases h : k2 = k <;> simp [dataSet, dataGet, h, ih]

theorem dataGet_dataSet_ne (d : DataMap) (k : String) (v : DVal) (k2 : String)
    (h : k ≠ k2) : dataGet (dataSet d k v) k2 = dataGet d k2 := by
  induction d with
  | nil => simp [dataSet, dataGet, h]
  | cons p rest ih =>
    obtain ⟨k3, v3⟩ := p
    by_cases h3 : k3 = k
    · subst h3
      simp [dataSet, dataGet, h]
    · simp [dataSet, dataGet, h3, ih]

theorem dataGet_dataUpdate (d ps : DataMap) (k : String) :
    dataGet (dataUpdate d ps) k = jsMergedGet ps d k := by
  induction ps generalizing d with
  | nil => rfl
  | cons p ps ih =>
    obtain ⟨k2, v2⟩ := p
    rw [show dataUpdate d ((k2, v2) :: ps) = dataUpdate (dataSet d k2 v2) ps from rfl,
      ih]
    simp only [jsMergedGet, lookAssoc]
    cases h : lookAssoc ps k with
    | some w => simp
    | none =>
      by_cases hk : k2 = k
      · subst hk
        simp [dataGet_dataSet_self]
      · simp [hk, dataGet_dataSet_ne _ _ _ _ hk]

theorem dataGet_eq_none_of_not_key (ps : DataMap) (k : String)
    (h : k ∉ ps.map Prod.fst) : dataGet ps k = none := by
  induction ps with
  | nil => rfl
  | cons p ps ih =>
    obtain ⟨k2, v2⟩ := p
    simp only [List.map_cons, List.mem_cons] at h
    push_neg at h
    have h1 : ¬ k2 = k := fun hh => h.1 hh.symm
    simp [dataGet, h1, ih h.2]

theorem lookAssoc_eq_dataGet_of_nodup (ps : DataMap)
    (h : (ps.map Prod.fst).Nodup) (k : String) : lookAssoc ps k = dataGet ps k := by
  induction ps with
  | nil => rfl
  | cons p ps ih =>
    obtain ⟨k2, v2⟩ := p
    simp only [List.map_cons, List.nodup_cons] at h
    simp only [lookAssoc, dataGet, ih h.2]
    by_cases hk : k2 = k
    · subst hk
      rw [dataGet_eq_none_of_not_key ps k2 h.1]
    · cases hg : dataGet ps k <;> simp [hk]

/-! ## Lemmas about updateElem -/

theorem updateElem_id (e : GraphElemState) (n : ElementDefinition) :
    (updateElem e n).id = e.id := rfl

theorem updateElem_isEdge (e : GraphElemState) (n : ElementDefinition) :
    (updateElem e n).isEdge = e.isEdge := rfl

theorem updateElem_source (e : GraphElemState) (n : ElementDefinition) :
    (updateElem e n).source = e.source := rfl

theorem updateElem_target (e : GraphElemState) (n : ElementDefinition) :
    (updateElem e n).target = e.target := rfl

theorem updateElem_selected (e : GraphElemState) (n : ElementDefinition) :
    (updateElem e n).selected = e.selected := rfl

theorem updateElem_data (e : GraphElemState) (n : ElementDefinition) :
    (updateElem e n).data = dataUpdate e.data n.data := rfl

theorem reAddExpanded_eq (b : Bool) (cs : List String) :
    (if b && decide ("expanded" ∈ cs) then addClassL cs "expanded" else cs) = cs := by
  split
  · rename_i h
    simp only [Bool.and_eq_true, decide_eq_true_eq] at h
    exact addClassL_of_mem h.2
  · rfl

theorem updClasses_eq (e : GraphElemState) (n : ElementDefinition) :
    updClasses e n =
      ((if "expanded" ∈ e.classes then ["expanded"] else []) ++
       (if "pinned" ∈ e.classes then ["pinned"] else [])).foldl addClassL n.classes := by
  simp only [updClasses]
  exact reAddExpanded_eq _ _

theorem mem_updateElem_classes (e : GraphElemState) (n : ElementDefinition)
    (c : String) :
    c ∈ (updateElem e n).classes ↔
      c ∈ n.classes ∨ (c = "expanded" ∧ "expanded" ∈ e.classes) ∨
        (c = "pinned" ∧ "pinned" ∈ e.classes) := by
  show c ∈ updClasses e n ↔ _
  rw [updClasses_eq]
  by_cases h1 : "expanded" ∈ e.classes <;> by_cases h2 : "pinned" ∈ e.classes <;>
    simp [h1, h2, List.foldl, mem_addClassL] <;> tauto

/-! ## Characterization of mergeToGraph -/

theorem byIdPresent_iff (g : Graph) (i : String) :
    byIdPresent g i = true ↔ ∃ e ∈ g, e.id = i := by
  simp [byIdPresent, List.any_eq_true, beq_iff_eq]

theorem byIdPresent_map (g : Graph) (f : GraphElemState → GraphElemState)
    (hf : ∀ e, (f e).id = e.id) (i : String) :
    byIdPresent (g.map f) i = byIdPresent g i := by
  induction g with
  | nil => rfl
  | cons e g ih =>
    simp only [byIdPresent, List.map_cons, List.any_cons] at ih ⊢
    rw [hf e, ih]

theorem upd_if_id (n : ElementDefinition) (e : GraphElemState) :
    (if e.id = n.id then updateElem e n else e).id = e.id := by
  by_cases h : e.id = n.id <;> simp [h, updateElem_id]

theorem applyDefs_id (e : GraphElemState) (L : List ElementDefinition) :
    (applyDefs e L).id = e.id := by
  induction L generalizing e with
  | nil => rfl
  | cons n L ih =>
    by_cases h : e.id = n.id <;> simp [applyDefs, h, ih, updateElem_id]

theorem applyDefs_isEdge (e : GraphElemState) (L : List ElementDefinition) :
    (applyDefs e L).isEdge = e.isEdge := by
  induction L generalizing e with
  | nil => rfl
  | cons n L ih =>
    by_cases h : e.id = n.id <;> simp [applyDefs, h, ih, updateElem_isEdge]

theorem applyDefs_source (e : GraphElemState) (L : List ElementDefinition) :
    (applyDefs e L).source = e.source := by
  induction L generalizing e with
  | nil => rfl
  | cons n L ih =>
    by_cases h : e.id = n.id <;> simp [applyDefs, h, ih, updateElem_source]

theorem applyDefs_target (e : GraphElemState) (L : List ElementDefinition) :
    (applyDefs e L).target = e.target := by
  induction L generalizing e with
  | nil => rfl
  | cons n L ih =>
    by_cases h : e.id = n.id <;> simp [applyDefs, h, ih, updateElem_target]

theorem applyDefs_selected (e : GraphElemState) (L : List ElementDefinition) :
    (applyDefs e L).selected = e.selected := by
  induction L generalizing e with
  | nil => rfl
  | cons n L ih =>
    by_cases h : e.id = n.id <;> simp [applyDefs, h, ih, updateElem_selected]

theorem mergeScan_fst (g : Graph) (L : List ElementDefinition) :
    (mergeScan g L).1 = g.map (fun e => applyDefs e L) := by
  induction L generalizing g with
  | nil => simp [mergeScan, applyDefs]
  | cons n L ih =>
    simp only [mergeScan]
    split
    · rw [ih, List.map_map]
      apply List.map_congr_left
      intro e _
      simp only [Function.comp]
      by_cases h : e.id = n.id <;> simp [applyDefs, h]
    · rename_i h
      simp only []
      rw [ih]
      apply List.map_congr_left
      intro e he
      have hne : ¬ e.id = n.id := by
        intro hh
        exact h ((byIdPresent_iff g n.id).mpr ⟨e, he, hh⟩)
      simp [applyDefs, hne]

theorem mergeScan_snd (g : Graph) (L : List ElementDefinition) :
    (mergeScan g L).2 = L.filter (fun n => !byIdPresent g n.id) := by
  induction L generalizing g with
  | nil => rfl
  | cons n L ih =>
    simp only [mergeScan]
    split
    · rename_i h
      have hb : ∀ i, byIdPresent
          (g.map fun e => if e.id = n.id then updateElem e n else e) i =
          byIdPresent g i :=
        byIdPresent_map g _ (upd_if_id n)
      rw [ih]
      simp only [hb]
      simp [List.filter_cons, h]
    · rename_i h
      simp only []
      rw [ih]
      simp only [List.filter_cons]
      simp [eq_false_of_ne_true h]

theorem addDefsSeq_decomp (g : Graph) (defs : List ElementDefinition) :
    ∃ r, addDefsSeq g defs = g ++ r := by
  induction defs generalizing g with
  | nil => exact ⟨[], by simp [addDefsSeq]⟩
  | cons n defs ih =>
    simp only [addDefsSeq]
    split
    · obtain ⟨r, hr⟩ := ih (g ++ [defToElem n])
      exact ⟨defToElem n :: r, by rw [hr]; simp⟩
    · exact ih g

theorem mem_addDefs (g : Graph) (defs : List ElementDefinition)
    (e : GraphElemState) (he : e ∈ g) : e ∈ addDefs g defs := by
  unfold addDefs
  obtain ⟨r1, hr1⟩ := addDefsSeq_decomp g (defs.filter defIsNode)
  obtain ⟨r2, hr2⟩ :=
    addDefsSeq_decomp (addDefsSeq g (defs.filter defIsNode))
      (defs.filter fun n => !defIsNode n)
  rw [hr2, hr1]
  exact List.mem_append_left _ (List.mem_append_left _ he)

theorem graphChangedElem_id (g : Graph) (e : GraphElemState) :
    (graphChangedElem g e).id = e.id := by
  unfold graphChangedElem
  split <;> rfl

theorem graphChangedElem_classes (g : Graph) (e : GraphElemState) :
    (graphChangedElem g e).classes = e.classes := by
  unfold graphChangedElem
  split <;> rfl

theorem graphChangedElem_isEdge (g : Graph) (e : GraphElemState) :
    (graphChangedElem g e).isEdge = e.isEdge := by
  unfold graphChangedElem
  split <;> rfl

theorem graphChangedElem_source (g : Graph) (e : GraphElemState) :
    (graphChangedElem g e).source = e.source := by
  unfold graphChangedElem
  split <;> rfl

theorem graphChangedElem_target (g : Graph) (e : GraphElemState) :
    (graphChangedElem g e).target = e.target := by
  unfold graphChangedElem
  split <;> rfl

theorem graphChangedElem_selected (g : Graph) (e : GraphElemState) :
    (graphChangedElem g e).selected = e.selected := by
  unfold graphChangedElem
  split <;> rfl

theorem mergeToGraph_eq (g : Graph) (L : List ElementDefinition) :
    mergeToGraph g L = onGraphChanged (addDefs (mergeScan g L).1 (mergeScan g L).2) :=
  rfl

/-! ## C1: protected-state preservation -/

theorem updateElem_protected (e : GraphElemState) (n : ElementDefinition)
    (hp : "pinned" ∉ n.classes) (hx : "expanded" ∉ n.classes) :
    ("pinned" ∈ (updateElem e n).classes ↔ "pinned" ∈ e.classes) ∧
    ("expanded" ∈ (updateElem e n).classes ↔ "expanded" ∈ e.classes) := by
  constructor <;> rw [mem_updateElem_classes] <;>
    simp [hp, hx, show ("pinned" : String) ≠ "expanded" by decide,
      show ("expanded" : String) ≠ "pinned" by decide]

theorem applyDefs_protected (e : GraphElemState) (L : List ElementDefinition)
    (hL : ∀ n ∈ L, n.id = e.id → "pinned" ∉ n.classes ∧ "expanded" ∉ n.classes) :
    ("pinned" ∈ (applyDefs e L).classes ↔ "pinned" ∈ e.classes) ∧
    ("expanded" ∈ (applyDefs e L).classes ↔ "expanded" ∈ e.classes) := by
  induction L generalizing e with
  | nil => simp [applyDefs]
  | cons n L ih =>
    by_cases h : e.id = n.id
    · simp only [applyDefs, if_pos h]
      have hn := hL n (List.mem_cons_self n L) h.symm
      have hup := updateElem_protected e n hn.1 hn.2
      have ihh := ih (updateElem e n) (fun m hm hid => by
        rw [updateElem_id] at hid
        exact hL m (List.mem_cons_of_mem n hm) hid)
      exact ⟨ihh.1.trans hup.1, ihh.2.trans hup.2⟩
    · simp only [applyDefs, if_neg h]
      exact ih e (fun m hm hid => hL m (List.mem_cons_of_mem n hm) hid)

/-- C1: a node already in the graph keeps its pinned and expanded tags unchanged
across any merge whose records for its identity carry neither tag: the tags are
preserved when present and not introduced when absent. -/
theorem merge_preserves_protected (g : Graph) (L : List ElementDefinition)
    (e : GraphElemState) (he : e ∈ g)
    (hL : ∀ n ∈ L, n.id = e.id → "pinned" ∉ n.classes ∧ "expanded" ∉ n.classes) :
    ∃ e2 ∈ mergeToGraph g L,
      e2.id = e.id ∧
      ("pinned" ∈ e2.classes ↔ "pinned" ∈ e.classes) ∧
      ("expanded" ∈ e2.classes ↔ "expanded" ∈ e.classes) := by
  have hmem : applyDefs e L ∈ (mergeScan g L).1 := by
    rw [mergeScan_fst]
    exact List.mem_map_of_mem _ he
  have hA : applyDefs e L ∈ addDefs (mergeScan g L).1 (mergeScan g L).2 :=
    mem_addDefs _ _ _ hmem
  rw [mergeToGraph_eq]
  refine ⟨graphChangedElem _ (applyDefs e L), List.mem_map_of_mem _ hA, ?_, ?_, ?_⟩
  · rw [graphChangedElem_id, applyDefs_id]
  · rw [graphChangedElem_classes]
    exact (applyDefs_protected e L hL).1
  · rw [graphChangedElem_classes]
    exact (applyDefs_protected e L hL).2

theorem merge_preserves_protected_witness :
    (∀ e2 ∈ mergeToGraph [nodeA] [recA],
      "pinned" ∈ e2.classes ∧ "expanded" ∈ e2.classes ∧ "visited" ∈ e2.classes) ∧
    ∃ e2 ∈ mergeToGraph [nodeA] [recA],
      e2.id = nodeA.id ∧
      ("pinned" ∈ e2.classes ↔ "pinned" ∈ nodeA.classes) ∧
      ("expanded" ∈ e2.classes ↔ "expanded" ∈ nodeA.classes) :=
  ⟨by decide,
   merge_preserves_protected [nodeA] [recA] nodeA (List.mem_singleton.mpr rfl)
     (by decide)⟩

/-! ## C5: the update branch overwrites tags but field-wise merges data -/

/-- C5 (amended): for an element already present, merge replaces the tag set by
the incoming tags plus the preserved pinned and expanded tags, and updates the
data field-wise: every incoming field overwrites, every existing field absent
from the incoming record is kept (and the derived degree and nameLength fields
are recomputed), rather than replacing the data wholesale. -/
theorem merge_update_shallow (g : Graph) (n : ElementDefinition)
    (e : GraphElemState) (he : e ∈ g) (hid : e.id = n.id) :
    ∃ e2 ∈ mergeToGraph g [n],
      e2.id = e.id ∧
      (∀ c, c ∈ e2.classes ↔
        (c ∈ n.classes ∨ (c = "expanded" ∧ "expanded" ∈ e.classes) ∨
          (c = "pinned" ∧ "pinned" ∈ e.classes))) ∧
      (∀ k, k ≠ "degree" → k ≠ "nameLength" →
        dataGet e2.data k = jsMergedGet n.data e.data k) := by
  have happ : applyDefs e [n] = updateElem e n := by
    simp [applyDefs, hid]
  have hmem : applyDefs e [n] ∈ (mergeScan g [n]).1 := by
    rw [mergeScan_fst]
    exact List.mem_map_of_mem _ he
  have hA : applyDefs e [n] ∈ addDefs (mergeScan g [n]).1 (mergeScan g [n]).2 :=
    mem_addDefs _ _ _ hmem
  rw [mergeToGraph_eq]
  refine ⟨graphChangedElem _ (applyDefs e [n]), List.mem_map_of_mem _ hA, ?_, ?_, ?_⟩
  · rw [graphChangedElem_id, applyDefs_id]
  · intro c
    rw [graphChangedElem_classes, happ]
    exact mem_updateElem_classes e n c
  · intro k hk1 hk2
    rw [happ]
    by_cases hE : (updateElem e n).isEdge = true
    · rw [show graphChangedElem (addDefs (mergeScan g [n]).1 (mergeScan g [n]).2)
          (updateElem e n) = updateElem e n by simp [graphChangedElem, hE]]
      rw [updateElem_data, dataGet_dataUpdate]
    · simp only [graphChangedElem, hE]
      simp only [Bool.not_eq_true] at hE
      rw [if_neg (by simp [hE])]
      rw [dataGet_dataSet_ne _ _ _ _ (fun hh => hk2 hh.symm),
        dataGet_dataSet_ne _ _ _ _ (fun hh => hk1 hh.symm),
        updateElem_data, dataGet_dataUpdate]

/-- C5 (counterexample): merging a record for an existing element does not make
the element's data equal the incoming record's data: the old field foo, absent
from the incoming record, survives the merge. -/
theorem merge_data_wholesale_cex :
    ((mergeToGraph [nodeX] [recX]).find? (fun e => e.id == "x")).map
        (fun e => dataGet e.data "foo") = some (some (DVal.str "bar")) ∧
    dataGet recX.data "foo" = none := by
  constructor
  · decide
  · decide

theorem merge_update_shallow_witness :
    ∃ e2 ∈ mergeToGraph [nodeX] [recX],
      e2.id = nodeX.id ∧
      (∀ c, c ∈ e2.classes ↔
        (c ∈ recX.classes ∨ (c = "expanded" ∧ "expanded" ∈ nodeX.classes) ∨
          (c = "pinned" ∧ "pinned" ∈ nodeX.classes))) ∧
      (∀ k, k ≠ "degree" → k ≠ "nameLength" →
        dataGet e2.data k = jsMergedGet recX.data nodeX.data k) :=
  merge_update_shallow [nodeX] recX nodeX (List.mem_singleton.mpr rfl) rfl

theorem list_contains_iff_mem (l : List String) (a : String) :
    l.contains a = true ↔ a ∈ l := by
  simp [List.contains, List.elem_eq_mem]

/-- C8 (amended): Invert is an involution on the whole selection state; SelectAll
followed by Invert leaves exactly the edges that were unselected beforehand
selected, and in particular no node selected; the selection is empty only when
every edge was already selected. -/
theorem selection_laws_amended (g : Graph) :
    invertSelection (invertSelection g) = g ∧
    selectedElems (invertSelection (selectAll g)) =
      (g.filter (fun e => e.isEdge && !e.selected)).map
        (fun e => { e with selected := true }) := by
  constructor
  · rw [invertSelection, invertSelection, List.map_map]
    conv_rhs => rw [← List.map_id g]
    apply List.map_congr_left
    intro e _
    cases e
    simp
  · induction g with
    | nil => rfl
    | cons e g ih =>
      by_cases hE : e.isEdge = true <;> by_cases hs : e.selected = true <;>
        simp [selectAll, invertSelection, selectedElems, List.filter_cons, hE, hs] <;>
        simpa [selectAll, invertSelection, selectedElems] using ih

/-- C8 (counterexample): in a graph with two nodes, one unselected edge and an
empty selection, SelectAll followed by Invert selects the edge, not the empty
selection. -/
theorem selectAll_invert_cex :
    selectedElems [cexNodeA, cexNodeB, cexEdgeAB] = [] ∧
    selectedElems (invertSelection (selectAll [cexNodeA, cexNodeB, cexEdgeAB])) =
      [{ cexEdgeAB with selected := true }] := by
  constructor
  · decide
  · decide

theorem list_contains_eq_false (l : List String) (a : String) (h : a ∉ l) :
    l.contains a = false := by
  cases hc : l.contains a
  · rfl
  · exact absurd ((list_contains_iff_mem l a).mp hc) h

theorem removeClearElem_id (g : Graph) (S : List String) (e : GraphElemState) :
    (removeClearElem g S e).id = e.id := by
  unfold removeClearElem
  split <;> rfl

theorem removeClearElem_isEdge (g : Graph) (S : List String) (e : GraphElemState) :
    (removeClearElem g S e).isEdge = e.isEdge := by
  unfold removeClearElem
  split <;> rfl

/-- C6: a node outside the removed set with a graph-neighbor inside the removed
set never carries the expanded tag after removeNodes, and it survives the
removal; in particular a node expanded solely because of a neighbor C loses
expanded when C is removed, and a node whose (nonempty) neighbor set is wholly
removed cannot stay expanded. -/
theorem removeNodes_clears_expanded (g : Graph) (S : List String) (B : String)
    (hB : B ∉ S) (hadj : ∃ C ∈ S, adjacentIn g B C = true) :
    (∀ e2 ∈ removeNodes g S, e2.id = B → e2.isEdge = false →
        "expanded" ∉ e2.classes) ∧
    (∀ e ∈ g, e.id = B → e.isEdge = false →
        ∃ e2 ∈ removeNodes g S, e2.id = B ∧ e2.isEdge = false) := by
  constructor
  · intro e2 h2 hid hE hmem
    simp only [removeNodes] at h2
    rw [List.mem_filter] at h2
    obtain ⟨h2m, _⟩ := h2
    rw [List.mem_map] at h2m
    obtain ⟨e, heg, heq⟩ := h2m
    by_cases hc : (isExpandedNode e &&
        S.any fun s => !(s == e.id) && adjacentIn g e.id s) = true
    · rw [removeClearElem, if_pos hc] at heq
      rw [← heq] at hmem
      simp only [List.mem_filter] at hmem
      simp at hmem
    · rw [removeClearElem, if_neg hc] at heq
      subst heq
      apply hc
      simp only [Bool.and_eq_true]
      constructor
      · simp only [isExpandedNode, hE, Bool.not_false, Bool.true_and]
        exact (list_contains_iff_mem _ _).mpr hmem
      · obtain ⟨C, hCS, hCadj⟩ := hadj
        rw [List.any_eq_true]
        refine ⟨C, hCS, ?_⟩
        simp only [Bool.and_eq_true, Bool.not_eq_true', beq_eq_false_iff_ne, ne_eq,
          hid]
        exact ⟨fun hCB => hB (hCB ▸ hCS), hCadj⟩
  · intro e heg hid hE
    refine ⟨removeClearElem g S e, ?_, ?_, ?_⟩
    · simp only [removeNodes]
      rw [List.mem_filter]
      refine ⟨List.mem_map_of_mem _ heg, ?_⟩
      rw [show (removeClearElem g S e).isEdge = false from
        (removeClearElem_isEdge g S e).trans hE]
      simp only [Bool.false_eq_true, if_false]
      rw [removeClearElem_id, hid, list_contains_eq_false S B hB]
      rfl
    · rw [removeClearElem_id, hid]
    · rw [removeClearElem_isEdge, hE]

theorem removeNodes_clears_expanded_witness :
    (∀ e2 ∈ removeNodes [nodeBr, nodeCr, edgeBCr] ["C"], e2.id = "B" →
        e2.isEdge = false → "expanded" ∉ e2.classes) ∧
    (∀ e ∈ [nodeBr, nodeCr, edgeBCr], e.id = "B" → e.isEdge = false →
        ∃ e2 ∈ removeNodes [nodeBr, nodeCr, edgeBCr] ["C"],
          e2.id = "B" ∧ e2.isEdge = false) :=
  removeNodes_clears_expanded [nodeBr, nodeCr, edgeBCr] ["C"] "B" (by decide)
    ⟨"C", by decide, by decide⟩

/-- C3 (counterexample): with a rejecting provider registered before a
succeeding one, the whole neighbourhood fetch rejects: the succeeding
provider's nonempty contribution is not merged and there is no partial result;
the surrounding expand rejects as well. -/
theorem neighbourhood_partial_cex :
    neighbourhood [failStore, okStore] [] = Except.error "provider rejected" ∧
    (∃ l, okStore.getNeighbourhood [] = Except.ok l ∧ l ≠ []) ∧
    (∀ l, neighbourhood [failStore, okStore] [] ≠ Except.ok l) ∧
    expand [failStore, okStore] [] ["core:Home"] =
      Except.error "provider rejected" := by
  refine ⟨rfl, ⟨_, rfl, by decide⟩, ?_, rfl⟩
  intro l h
  rw [show neighbourhood [failStore, okStore] ([] : List VizId) =
    Except.error "provider rejected" from rfl] at h
  exact Except.noConfusion h

/-- C3 (amended): a rejection by any registered provider makes the whole
neighbourhood fetch (respectively buildEdges) reject; no other provider's
contribution is merged and the operation yields no partial result. -/
theorem provider_failure_aborts_fetch :
    (∀ (stores : List DataStore) (ids : List VizId) (s : DataStore) (msg : String),
      s ∈ stores → s.getNeighbourhood ids = Except.error msg →
      ∃ msg2, neighbourhood stores ids = Except.error msg2) ∧
    (∀ (stores : List DataStore) (g : Graph) (ns : List GraphElemState)
        (s : DataStore) (msg : String),
      s ∈ stores → s.connectNodes (g.filter (fun e => !e.isEdge)) ns =
        Except.error msg →
      ∃ msg2, buildEdges stores g ns = Except.error msg2) := by
  constructor
  · intro stores ids s msg hs herr
    induction stores with
    | nil => exact absurd hs (List.not_mem_nil s)
    | cons s0 ss ih =>
      rcases List.mem_cons.mp hs with rfl | hmem
      · exact ⟨msg, by simp [neighbourhood, herr]⟩
      · cases h0 : s0.getNeighbourhood ids with
        | error e => exact ⟨e, by simp [neighbourhood, h0]⟩
        | ok l =>
          obtain ⟨m2, hm2⟩ := ih hmem
          exact ⟨m2, by simp [neighbourhood, h0, hm2]⟩
  · intro stores g ns s msg hs herr
    induction stores with
    | nil => exact absurd hs (List.not_mem_nil s)
    | cons s0 ss ih =>
      rcases List.mem_cons.mp hs with rfl | hmem
      · exact ⟨msg, by simp [buildEdges, herr]⟩
      · cases h0 : s0.connectNodes (g.filter (fun e => !e.isEdge)) ns with
        | error e => exact ⟨e, by simp [buildEdges, h0]⟩
        | ok l =>
          obtain ⟨m2, hm2⟩ := ih hmem
          exact ⟨m2, by simp [buildEdges, h0, hm2]⟩

theorem provider_failure_aborts_fetch_witness :
    (∃ msg2, neighbourhood [okStore, failStore] [] = Except.error msg2) ∧
    (∃ msg2, buildEdges [okStore, failStore] [] [] = Except.error msg2) :=
  ⟨provider_failure_aborts_fetch.1 [okStore, failStore] [] failStore
      "provider rejected" (by simp [List.mem_cons]) rfl,
   provider_failure_aborts_fetch.2 [okStore, failStore] [] [] failStore
      "provider rejected" (by simp [List.mem_cons]) rfl⟩

/-! ## Presence lemmas for expand -/

theorem byIdPresent_append (a b : Graph) (i : String) :
    byIdPresent (a ++ b) i = (byIdPresent a i || byIdPresent b i) := by
  simp [byIdPresent, List.any_append]

theorem byIdPresent_onGraphChanged (g : Graph) (i : String) :
    byIdPresent (onGraphChanged g) i = byIdPresent g i :=
  byIdPresent_map g _ (graphChangedElem_id g) i

theorem byIdPresent_mergeScan (g : Graph) (L : List ElementDefinition) (i : String) :
    byIdPresent (mergeScan g L).1 i = byIdPresent g i := by
  rw [mergeScan_fst]
  exact byIdPresent_map g _ (fun e => applyDefs_id e L) i

theorem isNodeIn_map (g : Graph) (f : GraphElemState → GraphElemState)
    (hid : ∀ e, (f e).id = e.id) (hE : ∀ e, (f e).isEdge = e.isEdge) (i : String) :
    isNodeIn (g.map f) i = isNodeIn g i := by
  induction g with
  | nil => rfl
  | cons e g ih =>
    simp only [isNodeIn, List.map_cons, List.any_cons] at ih ⊢
    rw [hid e, hE e, ih]

theorem isNodeIn_append_true (g r : Graph) (i : String) (h : isNodeIn g i = true) :
    isNodeIn (g ++ r) i = true := by
  unfold isNodeIn at h ⊢
  rw [List.any_append, h, Bool.true_or]

theorem endpointOk_append (g r : Graph) (o : Option String)
    (h : endpointOk g o = true) : endpointOk (g ++ r) o = true := by
  cases o with
  | none => exact absurd h (by simp [endpointOk])
  | some s =>
    simp only [endpointOk] at h ⊢
    exact isNodeIn_append_true g r s h

theorem isNodeIn_mergeScan (g : Graph) (L : List ElementDefinition) (i : String) :
    isNodeIn (mergeScan g L).1 i = isNodeIn g i := by
  rw [mergeScan_fst]
  exact isNodeIn_map g _ (fun e => applyDefs_id e L) (fun e => applyDefs_isEdge e L) i

theorem endpointOk_mergeScan (g : Graph) (L : List ElementDefinition)
    (o : Option String) : endpointOk (mergeScan g L).1 o = endpointOk g o := by
  cases o <;> simp [endpointOk, isNodeIn_mergeScan]

theorem addDefsSeq_present (g : Graph) (defs : List ElementDefinition)
    (i : String) (h : byIdPresent g i = true) :
    byIdPresent (addDefsSeq g defs) i = true := by
  induction defs generalizing g with
  | nil => exact h
  | cons n defs ih =>
    simp only [addDefsSeq]
    split
    · exact ih _ (by rw [byIdPresent_append, h, Bool.true_or])
    · exact ih _ h

theorem addDefsSeq_mem_present (defs : List ElementDefinition) (g : Graph)
    (n : ElementDefinition) (hn : n ∈ defs)
    (hok : defIsNode n = true ∨
      (endpointOk g n.source = true ∧ endpointOk g n.target = true)) :
    byIdPresent (addDefsSeq g defs) n.id = true := by
  induction defs generalizing g with
  | nil => exact absurd hn (List.not_mem_nil n)
  | cons m defs ih =>
    simp only [addDefsSeq]
    rcases List.mem_cons.mp hn with rfl | hmem
    · by_cases hc : canAddDef g n = true
      · rw [if_pos hc]
        apply addDefsSeq_present
        rw [byIdPresent_append, Bool.or_eq_true]
        right
        simp [byIdPresent, defToElem]
      · rw [if_neg hc]
        apply addDefsSeq_present
        by_contra hp
        apply hc
        have hp2 : byIdPresent g n.id = false := by
          cases hb : byIdPresent g n.id
          · rfl
          · exact absurd hb hp
        have hcond : (defIsNode n ||
            (endpointOk g n.source && endpointOk g n.target)) = true := by
          rcases hok with h1 | ⟨h2, h3⟩
          · simp [h1]
          · simp [h2, h3]
        unfold canAddDef
        rw [hp2, hcond]
        rfl
    · split
      · apply ih _ hmem
        rcases hok with h1 | ⟨h2, h3⟩
        · exact Or.inl h1
        · exact Or.inr ⟨endpointOk_append _ _ _ h2, endpointOk_append _ _ _ h3⟩
      · exact ih _ hmem hok

theorem byIdPresent_mergeToGraph (g : Graph) (L : List ElementDefinition)
    (i : String) (h : byIdPresent g i = true) :
    byIdPresent (mergeToGraph g L) i = true := by
  rw [mergeToGraph_eq, byIdPresent_onGraphChanged]
  unfold addDefs
  apply addDefsSeq_present
  apply addDefsSeq_present
  rw [byIdPresent_mergeScan]
  exact h

/-- A record of the merged list ends up present in the store: either its id was
already present, or it is staged and then added (a node unconditionally, an
edge when its endpoints are nodes of the graph being merged into). -/
theorem mergeToGraph_adds (g : Graph) (L : List ElementDefinition)
    (n : ElementDefinition) (hn : n ∈ L)
    (hok : defIsNode n = true ∨
      (endpointOk g n.source = true ∧ endpointOk g n.target = true)) :
    byIdPresent (mergeToGraph g L) n.id = true := by
  by_cases hp : byIdPresent g n.id = true
  · exact byIdPresent_mergeToGraph g L n.id hp
  · have hp2 : byIdPresent g n.id = false := by
      cases hb : byIdPresent g n.id
      · rfl
      · exact absurd hb hp
    have hstage : n ∈ (mergeScan g L).2 := by
      rw [mergeScan_snd, List.mem_filter]
      exact ⟨hn, by rw [hp2]; rfl⟩
    rw [mergeToGraph_eq, byIdPresent_onGraphChanged]
    unfold addDefs
    rcases hok with hnode | ⟨h2, h3⟩
    · apply addDefsSeq_present
      apply addDefsSeq_mem_present _ _ _ ?_ (Or.inl hnode)
      rw [List.mem_filter]
      exact ⟨hstage, hnode⟩
    · have hEdef : defIsNode n = false := by
        cases hs : n.source with
        | none => rw [hs] at h2; exact absurd h2 (by simp [endpointOk])
        | some s => simp [defIsNode, hs]
      apply addDefsSeq_mem_present
      · rw [List.mem_filter]
        exact ⟨hstage, by rw [hEdef]; rfl⟩
      · right
        obtain ⟨r, hr⟩ :=
          addDefsSeq_decomp (mergeScan g L).1 ((mergeScan g L).2.filter defIsNode)
        rw [hr]
        constructor
        · apply endpointOk_append
          rw [endpointOk_mergeScan]
          exact h2
        · apply endpointOk_append
          rw [endpointOk_mergeScan]
          exact h3

/-! ## updateActiveFile preserves presence and the expanded class -/

theorem uafClear_id (e : GraphElemState) : (uafClear e).id = e.id := rfl

theorem uafClear_isEdge (e : GraphElemState) : (uafClear e).isEdge = e.isEdge := rfl

theorem uafClear_expanded (e : GraphElemState) :
    "expanded" ∈ (uafClear e).classes ↔ "expanded" ∈ e.classes := by
  constructor
  · intro h
    exact (List.mem_filter.mp h).1
  · intro h
    exact List.mem_filter.mpr ⟨h, by decide⟩

theorem uafInactive_id (g : Graph) (N : List String) (e : GraphElemState) :
    (uafInactive g N e).id = e.id := by
  unfold uafInactive
  split <;> rfl

theorem uafInactive_isEdge (g : Graph) (N : List String) (e : GraphElemState) :
    (uafInactive g N e).isEdge = e.isEdge := by
  unfold uafInactive
  split <;> rfl

theorem uafInactive_expanded (g : Graph) (N : List String) (e : GraphElemState) :
    "expanded" ∈ (uafInactive g N e).classes ↔ "expanded" ∈ e.classes := by
  unfold uafInactive
  split
  · exact Iff.rfl
  · simp [mem_addClassL, show ("expanded" : String) ≠ "inactive-file" by decide]

theorem uafActive_id (N : List String) (e : GraphElemState) :
    (uafActive N e).id = e.id := by
  unfold uafActive
  split <;> rfl

theorem uafActive_isEdge (N : List String) (e : GraphElemState) :
    (uafActive N e).isEdge = e.isEdge := by
  unfold uafActive
  split <;> rfl

theorem uafActive_expanded (N : List String) (e : GraphElemState) :
    "expanded" ∈ (uafActive N e).classes ↔ "expanded" ∈ e.classes := by
  unfold uafActive
  split
  · simp [mem_addClassL, show ("expanded" : String) ≠ "active-file" by decide]
  · exact Iff.rfl

theorem uafConnEdge_id (N : List String) (e : GraphElemState) :
    (uafConnEdge N e).id = e.id := by
  unfold uafConnEdge
  split <;> rfl

theorem uafConnEdge_isEdge (N : List String) (e : GraphElemState) :
    (uafConnEdge N e).isEdge = e.isEdge := by
  unfold uafConnEdge
  split <;> rfl

theorem uafConnEdge_expanded (N : List String) (e : GraphElemState) :
    "expanded" ∈ (uafConnEdge N e).classes ↔ "expanded" ∈ e.classes := by
  unfold uafConnEdge
  split
  · simp [mem_addClassL, show ("expanded" : String) ≠ "connected-active-file" by decide]
  · exact Iff.rfl

theorem uafConnNode_id (g : Graph) (N : List String) (e : GraphElemState) :
    (uafConnNode g N e).id = e.id := by
  unfold uafConnNode
  split <;> rfl

theorem uafConnNode_isEdge (g : Graph) (N : List String) (e : GraphElemState) :
    (uafConnNode g N e).isEdge = e.isEdge := by
  unfold uafConnNode
  split <;> rfl

theorem uafConnNode_expanded (g : Graph) (N : List String) (e : GraphElemState) :
    "expanded" ∈ (uafConnNode g N e).classes ↔ "expanded" ∈ e.classes := by
  unfold uafConnNode
  split
  · simp [mem_addClassL, show ("expanded" : String) ≠ "connected-active-file" by decide]
  · exact Iff.rfl

theorem mem_updateActiveFile (g : Graph) (N : List String) (e2 : GraphElemState)
    (h : e2 ∈ updateActiveFile g N) :
    ∃ e ∈ g,
      e2 = uafConnNode g N (uafConnEdge N (uafActive N (uafInactive g N (uafClear e)))) := by
  unfold updateActiveFile at h
  rw [List.map_map, List.map_map, List.map_map, List.map_map] at h
  obtain ⟨e, he, heq⟩ := List.mem_map.mp h
  refine ⟨e, he, ?_⟩
  simp only [Function.comp] at heq
  exact heq.symm

theorem uafChain_id (g : Graph) (N : List String) (e : GraphElemState) :
    (uafConnNode g N (uafConnEdge N (uafActive N (uafInactive g N (uafClear e))))).id
      = e.id := by
  rw [uafConnNode_id, uafConnEdge_id, uafActive_id, uafInactive_id, uafClear_id]

theorem uafChain_isEdge (g : Graph) (N : List String) (e : GraphElemState) :
    (uafConnNode g N (uafConnEdge N (uafActive N (uafInactive g N (uafClear e))))).isEdge
      = e.isEdge := by
  rw [uafConnNode_isEdge, uafConnEdge_isEdge, uafActive_isEdge, uafInactive_isEdge,
    uafClear_isEdge]

theorem uafChain_expanded (g : Graph) (N : List String) (e : GraphElemState) :
    "expanded" ∈
        (uafConnNode g N (uafConnEdge N (uafActive N (uafInactive g N (uafClear e))))).classes
      ↔ "expanded" ∈ e.classes :=
  (uafConnNode_expanded _ _ _).trans ((uafConnEdge_expanded _ _).trans
    ((uafActive_expanded _ _).trans ((uafInactive_expanded _ _ _).trans
      (uafClear_expanded _))))

theorem byIdPresent_updateActiveFile (g : Graph) (N : List String) (i : String) :
    byIdPresent (updateActiveFile g N) i = byIdPresent g i := by
  unfold updateActiveFile
  rw [byIdPresent_map _ _ (uafConnNode_id g N),
    byIdPresent_map _ _ (uafConnEdge_id N),
    byIdPresent_map _ _ (uafActive_id N),
    byIdPresent_map _ _ (uafInactive_id g N),
    byIdPresent_map _ _ uafClear_id]

theorem aCANF_id (ids : List String) (c : String) (e : GraphElemState) :
    (if !e.isEdge && ids.contains e.id then { e with classes := addClassL e.classes c }
     else e).id = e.id := by
  split <;> rfl

theorem aCANF_isEdge (ids : List String) (c : String) (e : GraphElemState) :
    (if !e.isEdge && ids.contains e.id then { e with classes := addClassL e.classes c }
     else e).isEdge = e.isEdge := by
  split <;> rfl

theorem aCANF_expanded_of (ids : List String) (e : GraphElemState)
    (hn : e.isEdge = false) (hin : e.id ∈ ids) :
    "expanded" ∈
      (if !e.isEdge && ids.contains e.id then
        { e with classes := addClassL e.classes "expanded" }
       else e).classes := by
  rw [if_pos (by simp [hn, list_contains_iff_mem, hin])]
  simp [mem_addClassL]

theorem byIdPresent_addClassAllNodes (g : Graph) (ids : List String) (c : String)
    (i : String) : byIdPresent (addClassAllNodes g ids c) i = byIdPresent g i :=
  byIdPresent_map g _ (aCANF_id ids c) i

/-- C7: after expand completes, every node of the expanded set carries the
expanded tag and stays present in the store, and every edge record returned by
the providers' connectNodes calls whose endpoints are nodes of the merged
graph is present in the store. -/
theorem expand_spec (stores : List DataStore) (g : Graph)
    (toExpand : List String) (nbhd edges : List ElementDefinition) (gF : Graph)
    (h1 : neighbourhood stores (toExpand.map VizId.fromId) = Except.ok nbhd)
    (h2 : buildEdges stores (mergeToGraph g nbhd)
        (mergedNodeCollection (mergeToGraph g nbhd) nbhd) = Except.ok edges)
    (hE : expand stores g toExpand = Except.ok gF)
    (hends : ∀ n ∈ edges, defIsNode n = true ∨
        (endpointOk (mergeToGraph g nbhd) n.source = true ∧
         endpointOk (mergeToGraph g nbhd) n.target = true)) :
    (∀ e2 ∈ gF, e2.id ∈ toExpand → e2.isEdge = false → "expanded" ∈ e2.classes) ∧
    (∀ i ∈ toExpand, byIdPresent g i = true → byIdPresent gF i = true) ∧
    (∀ n ∈ edges, byIdPresent gF n.id = true) := by
  have hgF : gF = updateActiveFile
      (addClassAllNodes (mergeToGraph (mergeToGraph g nbhd) edges) toExpand
        "expanded") toExpand := by
    unfold expand at hE
    simp only [h1] at hE
    simp only [h2] at hE
    simp only [Except.ok.injEq] at hE
    exact hE.symm
  subst hgF
  refine ⟨?_, ?_, ?_⟩
  · intro e2 h2m hidm hEm
    obtain ⟨e3, he3, heq⟩ := mem_updateActiveFile _ _ _ h2m
    subst heq
    rw [uafChain_id] at hidm
    rw [uafChain_isEdge] at hEm
    rw [uafChain_expanded]
    obtain ⟨e4, he4, heq4⟩ := List.mem_map.mp he3
    subst heq4
    rw [aCANF_id] at hidm
    rw [aCANF_isEdge] at hEm
    exact aCANF_expanded_of toExpand e4 hEm hidm
  · intro i _ hp
    rw [byIdPresent_updateActiveFile, byIdPresent_addClassAllNodes]
    exact byIdPresent_mergeToGraph _ _ _ (byIdPresent_mergeToGraph _ _ _ hp)
  · intro n hn
    rw [byIdPresent_updateActiveFile, byIdPresent_addClassAllNodes]
    exact mergeToGraph_adds _ _ _ hn (hends n hn)

theorem expand_spec_witness :
    (∀ e2 ∈ (expand [wStore] [homeNode] ["core:Home"]).toOption.getD [],
        e2.id ∈ ["core:Home"] → e2.isEdge = false → "expanded" ∈ e2.classes) ∧
    (∀ i ∈ ["core:Home"], byIdPresent [homeNode] i = true →
        byIdPresent ((expand [wStore] [homeNode] ["core:Home"]).toOption.getD [])
          i = true) ∧
    (∀ n ∈ [recHB],
        byIdPresent ((expand [wStore] [homeNode] ["core:Home"]).toOption.getD [])
          n.id = true) :=
  expand_spec [wStore] [homeNode] ["core:Home"] [recHome, recB7] [recHB] _
    rfl rfl rfl (by decide)

theorem lookupTimeout_setTimeoutEntry (m : List (String × Option Nat))
    (i : String) (v : Option Nat) (j : String) :
    lookupTimeout (setTimeoutEntry m i v) j =
      if j = i then some v else lookupTimeout m j := by
  by_cases h : j = i
  · subst h
    simp only [if_pos rfl]
    induction m with
    | nil => simp [setTimeoutEntry, lookupTimeout]
    | cons p rest ih =>
      obtain ⟨a, w⟩ := p
      by_cases ha : a = j
      · subst ha
        simp [setTimeoutEntry, lookupTimeout]
      · simp [setTimeoutEntry, lookupTimeout, ha, ih]
  · simp only [if_neg h]
    induction m with
    | nil =>
      have h2 : ¬ i = j := fun hh => h hh.symm
      simp [setTimeoutEntry, lookupTimeout, h2]
    | cons p rest ih =>
      obtain ⟨a, w⟩ := p
      by_cases ha : a = i
      · subst ha
        have h3 : ¬ a = j := fun hh => h hh.symm
        simp [setTimeoutEntry, lookupTimeout, h3]
      · by_cases haj : a = j <;>
          simp [setTimeoutEntry, lookupTimeout, ha, haj, ih, h]

theorem countL_zero_iff (l : List (Nat × String)) (i : String) :
    countL l i = 0 ↔ ∀ p ∈ l, ¬ p.2 = i := by
  simp [countL, List.length_eq_zero, List.filter_eq_nil_iff, beq_iff_eq]

theorem countL_append (a b : List (Nat × String)) (i : String) :
    countL (a ++ b) i = countL a i + countL b i := by
  simp [countL, List.filter_append]

theorem countL_filter_le (l : List (Nat × String)) (q : Nat × String → Bool)
    (i : String) : countL (l.filter q) i ≤ countL l i := by
  unfold countL
  exact List.Sublist.length_le (List.Sublist.filter _ (List.filter_sublist l))

theorem hover_once_aux (tr : List HEvent) (hov : List String) (s s2 : HoverState)
    (hadm : admissibleFrom hov tr = true) (hrun : hRun s tr = some s2)
    (hinv : hovInv hov s) : ∀ i, countLive s2 i ≤ 1 := by
  induction tr generalizing hov s with
  | nil =>
    simp only [hRun, Option.some.injEq] at hrun
    subst hrun
    exact fun i => (hinv i).2.1
  | cons e tr ih =>
    cases e with
    | mouseover i =>
      simp only [admissibleFrom, Bool.and_eq_true, Bool.not_eq_true'] at hadm
      have hiNot : i ∉ hov := fun hm => by
        rw [(list_contains_iff_mem hov i).mpr hm] at hadm
        exact Bool.noConfusion hadm.1
      have hrun2 : hRun { s with
          timeouts := setTimeoutEntry s.timeouts i (some s.next),
          live := s.live ++ [(s.next, i)], next := s.next + 1 } tr = some s2 := hrun
      apply ih (i :: hov) _ hadm.2 hrun2
      intro j
      have hj := hinv j
      have hcnt0 : countLive s i = 0 := (hinv i).1 hiNot
      by_cases hji : j = i
      · subst hji
        refine ⟨fun hnot => absurd (List.mem_cons_self j hov) hnot, ?_, ?_⟩
        · show countL (s.live ++ [(s.next, j)]) j ≤ 1
          rw [countL_append, show countL s.live j = 0 from hcnt0]
          simp [countL]
        · intro p hp hpj
          rcases List.mem_append.mp hp with hpl | hpr
          · exact absurd hpj ((countL_zero_iff _ _).mp hcnt0 p hpl)
          · have hpe : p = (s.next, j) := List.mem_singleton.mp hpr
            subst hpe
            show lookupTimeout (setTimeoutEntry s.timeouts j (some s.next)) j =
              some (some s.next)
            rw [lookupTimeout_setTimeoutEntry]
            simp
      · have hij : ¬ i = j := fun hh => hji hh.symm
        have hlive : countL (s.live ++ [(s.next, i)]) j = countL s.live j := by
          rw [countL_append]
          have hz : countL [(s.next, i)] j = 0 := by
            simp [countL, beq_iff_eq, hij]
          rw [hz, Nat.add_zero]
        refine ⟨?_, ?_, ?_⟩
        · intro hnot
          have hjn : j ∉ hov := fun hm => hnot (List.mem_cons_of_mem i hm)
          show countL (s.live ++ [(s.next, i)]) j = 0
          rw [hlive]
          exact hj.1 hjn
        · show countL (s.live ++ [(s.next, i)]) j ≤ 1
          rw [hlive]
          exact hj.2.1
        · intro p hp hpj
          rcases List.mem_append.mp hp with hpl | hpr
          · show lookupTimeout (setTimeoutEntry s.timeouts i (some s.next)) j =
              some (some p.1)
            rw [lookupTimeout_setTimeoutEntry, if_neg hji]
            exact hj.2.2 p hpl hpj
          · have hpe : p = (s.next, i) := List.mem_singleton.mp hpr
            subst hpe
            have hpj2 : i = j := hpj
            exact absurd hpj2 hij
    | mouseout i =>
      simp only [admissibleFrom] at hadm
      cases hl : lookupTimeout s.timeouts i with
      | none =>
        simp only [hRun, hStep, hl] at hrun
        apply ih _ _ hadm hrun
        intro j
        have hj := hinv j
        refine ⟨?_, hj.2.1, hj.2.2⟩
        intro hnot
        by_cases hji : j = i
        · subst hji
          rw [countLive, countL_zero_iff]
          intro p hp hpj
          have hlk := hj.2.2 p hp hpj
          rw [hl] at hlk
          exact Option.noConfusion hlk
        · apply hj.1
          intro hm
          apply hnot
          rw [List.mem_filter]
          exact ⟨hm, by simp [beq_iff_eq, hji]⟩
      | some w =>
        cases w with
        | none =>
          simp only [hRun, hStep, hl] at hrun
          apply ih _ _ hadm hrun
          intro j
          have hj := hinv j
          refine ⟨?_, hj.2.1, ?_⟩
          · intro hnot
            by_cases hji : j = i
            · subst hji
              rw [countLive, countL_zero_iff]
              intro p hp hpj
              have hlk := hj.2.2 p hp hpj
              rw [hl] at hlk
              simp at hlk
            · apply hj.1
              intro hm
              apply hnot
              rw [List.mem_filter]
              exact ⟨hm, by simp [beq_iff_eq, hji]⟩
          · intro p hp hpj
            by_cases hji : j = i
            · subst hji
              have hlk := hj.2.2 p hp hpj
              rw [hl] at hlk
              simp at hlk
            · show lookupTimeout (setTimeoutEntry s.timeouts i none) j = some (some p.1)
              rw [lookupTimeout_setTimeoutEntry, if_neg hji]
              exact hj.2.2 p hp hpj
        | some t =>
          simp only [hRun, hStep, hl] at hrun
          apply ih _ _ hadm hrun
          intro j
          have hj := hinv j
          refine ⟨?_, ?_, ?_⟩
          · intro hnot
            by_cases hji : j = i
            · subst hji
              rw [countLive, countL_zero_iff]
              intro p hp hpj
              have hpl := List.mem_of_mem_filter hp
              have hlk := hj.2.2 p hpl hpj
              rw [hl] at hlk
              simp only [Option.some.injEq] at hlk
              have hpt : p.1 = t := hlk.symm
              have := (List.mem_filter.mp hp).2
              rw [hpt] at this
              simp at this
            · have hle := countL_filter_le s.live (fun p => !(p.1 == t)) j
              have h0 : countLive s j = 0 := hj.1 (fun hm => hnot (by
                rw [List.mem_filter]
                exact ⟨hm, by simp [beq_iff_eq, hji]⟩))
              show countL (s.live.filter fun p => !(p.1 == t)) j = 0
              rw [countLive] at h0
              omega
          · have hle := countL_filter_le s.live (fun p => !(p.1 == t)) j
            have := hj.2.1
            rw [countLive] at this
            show countL (s.live.filter fun p => !(p.1 == t)) j ≤ 1
            omega
          · intro p hp hpj
            have hpl := List.mem_of_mem_filter hp
            by_cases hji : j = i
            · subst hji
              have hlk := hj.2.2 p hpl hpj
              rw [hl] at hlk
              simp only [Option.some.injEq] at hlk
              have hpt : p.1 = t := hlk.symm
              have hpf := (List.mem_filter.mp hp).2
              rw [hpt] at hpf
              simp at hpf
            · show lookupTimeout (setTimeoutEntry s.timeouts i none) j = some (some p.1)
              rw [lookupTimeout_setTimeoutEntry, if_neg hji]
              exact hj.2.2 p hpl hpj
    | fire t =>
      simp only [admissibleFrom] at hadm
      cases hf : s.live.find? (fun p => p.1 == t) with
      | none =>
        simp only [hRun, hStep, hf] at hrun
        exact Option.noConfusion hrun
      | some p0 =>
        simp only [hRun, hStep, hf] at hrun
        apply ih hov _ hadm hrun
        intro j
        have hj := hinv j
        refine ⟨?_, ?_, ?_⟩
        · intro hnot
          have h0 := hj.1 hnot
          have hle := countL_filter_le s.live (fun q => !(q.1 == t)) j
          rw [countLive] at h0
          show countL (s.live.filter fun q => !(q.1 == t)) j = 0
          omega
        · have hle := countL_filter_le s.live (fun q => !(q.1 == t)) j
          have := hj.2.1
          rw [countLive] at this
          show countL (s.live.filter fun q => !(q.1 == t)) j ≤ 1
          omega
        · intro q hq hqj
          exact hj.2.2 q (List.mem_of_mem_filter hq) hqj

theorem tokenGone_step (s s2 : HoverState) (e : HEvent) (t : Nat)
    (hstep : hStep s e = some s2) (h : tokenGone t s) : tokenGone t s2 := by
  obtain ⟨h1, h2, h3⟩ := h
  cases e with
  | mouseover i =>
    simp only [hStep, Option.some.injEq] at hstep
    subst hstep
    refine ⟨?_, h2, Nat.lt_succ_of_lt h3⟩
    intro p hp
    rcases List.mem_append.mp hp with hpl | hpr
    · exact h1 p hpl
    · have hpe : p = (s.next, i) := List.mem_singleton.mp hpr
      subst hpe
      exact fun hh => absurd (hh ▸ h3) (Nat.lt_irrefl _)
  | mouseout i =>
    cases hl : lookupTimeout s.timeouts i with
    | none =>
      simp only [hStep, hl, Option.some.injEq] at hstep
      subst hstep
      exact ⟨h1, h2, h3⟩
    | some w =>
      cases w with
      | none =>
        simp only [hStep, hl, Option.some.injEq] at hstep
        subst hstep
        exact ⟨h1, h2, h3⟩
      | some u =>
        simp only [hStep, hl, Option.some.injEq] at hstep
        subst hstep
        exact ⟨fun p hp => h1 p (List.mem_of_mem_filter hp), h2, h3⟩
  | fire u =>
    cases hf : s.live.find? (fun p => p.1 == u) with
    | none => simp [hStep, hf] at hstep
    | some p0 =>
      simp only [hStep, hf, Option.some.injEq] at hstep
      subst hstep
      refine ⟨fun p hp => h1 p (List.mem_of_mem_filter hp), ?_, h3⟩
      intro p hp
      rcases List.mem_append.mp hp with hpl | hpr
      · exact h2 p hpl
      · have hpe : p = (u, p0.2) := List.mem_singleton.mp hpr
        subst hpe
        intro hh
        have hmem : p0 ∈ s.live := List.mem_of_find?_eq_some hf
        have hbu : p0.1 = u := by simpa [beq_iff_eq] using List.find?_some hf
        have hh2 : u = t := hh
        exact h1 p0 hmem (by rw [hbu]; exact hh2)

theorem tokenGone_run (tr : List HEvent) (s s2 : HoverState) (t : Nat)
    (hrun : hRun s tr = some s2) (h : tokenGone t s) : tokenGone t s2 := by
  induction tr generalizing s with
  | nil =>
    simp only [hRun, Option.some.injEq] at hrun
    subst hrun
    exact h
  | cons e tr ih =>
    cases hs : hStep s e with
    | none =>
      rw [show hRun s (e :: tr) = (match hStep s e with
        | some s3 => hRun s3 tr | none => none) from rfl, hs] at hrun
      exact Option.noConfusion hrun
    | some s3 =>
      rw [show hRun s (e :: tr) = (match hStep s e with
        | some s4 => hRun s4 tr | none => none) from rfl, hs] at hrun
      exact ih s3 hrun (tokenGone_step s s3 e t hs h)

theorem hReachInv_step (s s2 : HoverState) (e : HEvent)
    (hstep : hStep s e = some s2) (h : hReachInv s) : hReachInv s2 := by
  obtain ⟨h1, h2, h3⟩ := h
  cases e with
  | mouseover i =>
    simp only [hStep, Option.some.injEq] at hstep
    subst hstep
    refine ⟨?_, fun p hp => Nat.lt_succ_of_lt (h2 p hp), ?_⟩
    · intro p hp
      rcases List.mem_append.mp hp with hpl | hpr
      · exact Nat.lt_succ_of_lt (h1 p hpl)
      · have hpe : p = (s.next, i) := List.mem_singleton.mp hpr
        subst hpe
        exact Nat.lt_succ_self _
    · intro p hp q hq
      rcases List.mem_append.mp hp with hpl | hpr
      · exact h3 p hpl q hq
      · have hpe : p = (s.next, i) := List.mem_singleton.mp hpr
        subst hpe
        intro hh
        have hq2 := h2 q hq
        have hh2 : s.next = q.1 := hh
        rw [← hh2] at hq2
        exact Nat.lt_irrefl _ hq2
  | mouseout i =>
    cases hl : lookupTimeout s.timeouts i with
    | none =>
      simp only [hStep, hl, Option.some.injEq] at hstep
      subst hstep
      exact ⟨h1, h2, h3⟩
    | some w =>
      cases w with
      | none =>
        simp only [hStep, hl, Option.some.injEq] at hstep
        subst hstep
        exact ⟨h1, h2, h3⟩
      | some u =>
        simp only [hStep, hl, Option.some.injEq] at hstep
        subst hstep
        exact ⟨fun p hp => h1 p (List.mem_of_mem_filter hp), h2,
          fun p hp q hq => h3 p (List.mem_of_mem_filter hp) q hq⟩
  | fire u =>
    cases hf : s.live.find? (fun p => p.1 == u) with
    | none => simp [hStep, hf] at hstep
    | some p0 =>
      simp only [hStep, hf, Option.some.injEq] at hstep
      subst hstep
      have hmem : p0 ∈ s.live := List.mem_of_find?_eq_some hf
      have hbu : p0.1 = u := by simpa [beq_iff_eq] using List.find?_some hf
      refine ⟨fun p hp => h1 p (List.mem_of_mem_filter hp), ?_, ?_⟩
      · intro p hp
        rcases List.mem_append.mp hp with hpl | hpr
        · exact h2 p hpl
        · have hpe : p = (u, p0.2) := List.mem_singleton.mp hpr
          subst hpe
          have : p0.1 < s.next := h1 p0 hmem
          rw [hbu] at this
          exact this
      · intro p hp q hq
        rcases List.mem_append.mp hq with hql | hqr
        · exact h3 p (List.mem_of_mem_filter hp) q hql
        · have hqe : q = (u, p0.2) := List.mem_singleton.mp hqr
          subst hqe
          have := (List.mem_filter.mp hp).2
          intro hh
          have hh2 : p.1 = u := hh
          rw [hh2] at this
          simp at this

theorem hReachInv_run (tr : List HEvent) (s s2 : HoverState)
    (hrun : hRun s tr = some s2) (h : hReachInv s) : hReachInv s2 := by
  induction tr generalizing s with
  | nil =>
    simp only [hRun, Option.some.injEq] at hrun
    subst hrun
    exact h
  | cons e tr ih =>
    cases hs : hStep s e with
    | none =>
      rw [show hRun s (e :: tr) = (match hStep s e with
        | some s3 => hRun s3 tr | none => none) from rfl, hs] at hrun
      exact Option.noConfusion hrun
    | some s3 =>
      rw [show hRun s (e :: tr) = (match hStep s e with
        | some s4 => hRun s4 tr | none => none) from rfl, hs] at hrun
      exact ih s3 hrun (hReachInv_step s s3 e hs h)

theorem hReachInv_init : hReachInv hInit := by
  refine ⟨?_, ?_, ?_⟩ <;> intro p hp <;> exact absurd hp (List.not_mem_nil p)

/-- C9 (amended): pointer-leave cancels the pending preview task, and a task so
canceled never opens its popup later.  A new hover, however, only overwrites
the stored handle without clearing the previous timeout, so at most one task
is pending per element only on admissible pointer traces, where a mouseout is
delivered between two hovers of the same element as the DOM guarantees. -/
theorem hover_preview_amended :
    (∀ (tr : List HEvent) (s2 : HoverState), admissibleFrom [] tr = true →
      hRun hInit tr = some s2 → ∀ i, countLive s2 i ≤ 1) ∧
    (∀ (tr0 : List HEvent) (s1 : HoverState) (i : String) (t : Nat)
        (tr2 : List HEvent) (s2 : HoverState),
      hRun hInit tr0 = some s1 →
      lookupTimeout s1.timeouts i = some (some t) → (t, i) ∈ s1.live →
      hRun s1 (HEvent.mouseout i :: tr2) = some s2 →
      ∀ j, (t, j) ∉ s2.popups) := by
  constructor
  · intro tr s2 hadm hrun
    apply hover_once_aux tr [] hInit s2 hadm hrun
    intro i
    refine ⟨fun _ => rfl, Nat.zero_le 1, ?_⟩
    intro p hp
    exact absurd hp (List.not_mem_nil p)
  · intro tr0 s1 i t tr2 s2 hreach hl hlive hrun j hmem
    have hinv : hReachInv s1 := hReachInv_run tr0 hInit s1 hreach hReachInv_init
    have hstep : hStep s1 (HEvent.mouseout i) = some
        { s1 with
          timeouts := setTimeoutEntry s1.timeouts i none,
          live := s1.live.filter (fun p => !(p.1 == t)) } := by
      simp [hStep, hl]
    rw [show hRun s1 (HEvent.mouseout i :: tr2) =
        (match hStep s1 (HEvent.mouseout i) with
          | some s3 => hRun s3 tr2 | none => none) from rfl, hstep] at hrun
    have hgone : tokenGone t { s1 with
        timeouts := setTimeoutEntry s1.timeouts i none,
        live := s1.live.filter (fun p => !(p.1 == t)) } := by
      refine ⟨?_, ?_, ?_⟩
      · intro p hp
        have hpf := (List.mem_filter.mp hp).2
        simpa [beq_iff_eq] using hpf
      · intro p hp hh
        exact hinv.2.2 (t, i) hlive p hp hh.symm
      · exact hinv.1 (t, i) hlive
    have hfin := tokenGone_run tr2 _ s2 t hrun hgone
    exact hfin.2.1 (t, j) hmem rfl

/-- C9 (counterexample): the mouseover handler assigns a fresh setTimeout into
hoverTimeout without clearing the previous one, so after two hovers of one
element two preview tasks are pending at once, and the replaced (overwritten)
task still fires and opens its popup while the stored handle is the newer one. -/
theorem hover_stacking_cex :
    hRun hInit [HEvent.mouseover "a", HEvent.mouseover "a"] =
      some { timeouts := [("a", some 1)], live := [(0, "a"), (1, "a")],
             popups := [], next := 2 } ∧
    countLive { timeouts := [("a", some 1)], live := [(0, "a"), (1, "a")],
                popups := [], next := 2 } "a" = 2 ∧
    (∃ s2, hRun hInit [HEvent.mouseover "a", HEvent.mouseover "a",
        HEvent.fire 0] = some s2 ∧ (0, "a") ∈ s2.popups ∧
        lookupTimeout s2.timeouts "a" = some (some 1)) := by
  refine ⟨rfl, rfl, ⟨_, rfl, ?_, rfl⟩⟩
  decide

theorem hover_preview_amended_witness :
    (∀ i, countLive ((hRun hInit [HEvent.mouseover "a", HEvent.mouseout "a",
        HEvent.mouseover "a"]).getD hInit) i ≤ 1) ∧
    (∀ j, ((0 : Nat), j) ∉ ((hRun ((hRun hInit
        [HEvent.mouseover "a"]).getD hInit)
        [HEvent.mouseout "a"]).getD hInit).popups) :=
  ⟨hover_preview_amended.1
     [HEvent.mouseover "a", HEvent.mouseout "a", HEvent.mouseover "a"] _
     (by decide) rfl,
   hover_preview_amended.2 [HEvent.mouseover "a"] _ "a" 0 [] _ rfl rfl
     (by decide) rfl⟩

/-! ## Infrastructure for merge idempotence (C4) -/

theorem defToElem_id (n : ElementDefinition) : (defToElem n).id = n.id := rfl

theorem defToElem_isEdge_true (n : ElementDefinition) (h : defIsNode n = false) :
    (defToElem n).isEdge = true := by
  cases hs : n.source with
  | none =>
    unfold defIsNode at h
    rw [hs] at h
    exact absurd h (by simp)
  | some s => simp [defToElem, hs]

theorem isNodeIn_append_edges (g r : Graph) (hr : ∀ e ∈ r, e.isEdge = true)
    (i : String) : isNodeIn (g ++ r) i = isNodeIn g i := by
  unfold isNodeIn
  rw [List.any_append]
  have hz : r.any (fun e => !e.isEdge && e.id == i) = false := by
    simp only [List.any_eq_false]
    intro e he
    rw [hr e he]
    simp
  rw [hz, Bool.or_false]

theorem endpointOk_append_edges (g r : Graph) (hr : ∀ e ∈ r, e.isEdge = true)
    (o : Option String) : endpointOk (g ++ r) o = endpointOk g o := by
  cases o <;> simp [endpointOk, isNodeIn_append_edges g r hr]

theorem byIdPresent_map_defToElem (lst : List ElementDefinition) (i : String) :
    byIdPresent (lst.map defToElem) i = lst.any (fun m => m.id == i) := by
  induction lst with
  | nil => rfl
  | cons m lst ih =>
    simp only [byIdPresent, List.map_cons, List.any_cons] at ih ⊢
    rw [ih]
    rfl

theorem addDefsSeq_nodes (defs : List ElementDefinition) (g : Graph)
    (hall : ∀ n ∈ defs, defIsNode n = true)
    (hnp : ∀ n ∈ defs, byIdPresent g n.id = false)
    (hnd : (defs.map (fun n => n.id)).Nodup) :
    addDefsSeq g defs = g ++ defs.map defToElem := by
  induction defs generalizing g with
  | nil => simp [addDefsSeq]
  | cons n defs ih =>
    have hcan : canAddDef g n = true := by
      unfold canAddDef
      rw [hnp n (List.mem_cons_self n defs), hall n (List.mem_cons_self n defs)]
      rfl
    simp only [addDefsSeq, if_pos hcan]
    simp only [List.map_cons, List.nodup_cons] at hnd
    rw [ih (g ++ [defToElem n]) (fun m hm => hall m (List.mem_cons_of_mem n hm))
      (fun m hm => ?_) hnd.2]
    · simp
    · rw [byIdPresent_append, hnp m (List.mem_cons_of_mem n hm)]
      have hz : byIdPresent [defToElem n] m.id = false := by
        simp only [byIdPresent, List.any_cons, List.any_nil, Bool.or_false,
          defToElem_id, beq_eq_false_iff_ne, ne_eq]
        intro hh
        exact hnd.1 (hh ▸ List.mem_map_of_mem (fun n => n.id) hm)
      rw [hz]
      rfl

theorem addDefsSeq_edges (defs : List ElementDefinition) (g : Graph)
    (hall : ∀ n ∈ defs, defIsNode n = false)
    (hnp : ∀ n ∈ defs, byIdPresent g n.id = false)
    (hnd : (defs.map (fun n => n.id)).Nodup) :
    addDefsSeq g defs = g ++ (defs.filter (fun n =>
      endpointOk g n.source && endpointOk g n.target)).map defToElem := by
  induction defs generalizing g with
  | nil => simp [addDefsSeq]
  | cons n defs ih =>
    simp only [List.map_cons, List.nodup_cons] at hnd
    have hcan : canAddDef g n = (endpointOk g n.source && endpointOk g n.target) := by
      unfold canAddDef
      rw [hnp n (List.mem_cons_self n defs), hall n (List.mem_cons_self n defs)]
      simp
    cases hep : (endpointOk g n.source && endpointOk g n.target) with
    | true =>
      simp only [addDefsSeq]
      rw [if_pos (hcan.trans hep)]
      have hxe : ∀ e ∈ [defToElem n], e.isEdge = true := by
        intro e he
        rw [List.mem_singleton.mp he]
        exact defToElem_isEdge_true n (hall n (List.mem_cons_self n defs))
      rw [ih (g ++ [defToElem n]) (fun m hm => hall m (List.mem_cons_of_mem n hm))
        (fun m hm => ?_) hnd.2]
      · rw [List.filter_congr (fun m _ => by
          rw [endpointOk_append_edges g [defToElem n] hxe,
            endpointOk_append_edges g [defToElem n] hxe])]
        rw [List.filter_cons_of_pos (by rw [hep])]
        simp
      · rw [byIdPresent_append, hnp m (List.mem_cons_of_mem n hm)]
        have hz : byIdPresent [defToElem n] m.id = false := by
          simp only [byIdPresent, List.any_cons, List.any_nil, Bool.or_false,
            defToElem_id, beq_eq_false_iff_ne, ne_eq]
          intro hh
          exact hnd.1 (hh ▸ List.mem_map_of_mem (fun n => n.id) hm)
        rw [hz]
        rfl
    | false =>
      simp only [addDefsSeq]
      rw [if_neg (by rw [hcan, hep]; exact Bool.false_ne_true)]
      rw [ih g (fun m hm => hall m (List.mem_cons_of_mem n hm))
        (fun m hm => hnp m (List.mem_cons_of_mem n hm)) hnd.2]
      rw [List.filter_cons_of_neg (by rw [hep]; exact Bool.false_ne_true)]

theorem addDefsSeq_skip (g : Graph) (defs : List ElementDefinition)
    (h : ∀ n ∈ defs, canAddDef g n = false) : addDefsSeq g defs = g := by
  induction defs with
  | nil => rfl
  | cons n defs ih =>
    simp only [addDefsSeq]
    rw [if_neg (by rw [h n (List.mem_cons_self n defs)]; exact Bool.false_ne_true)]
    exact ih (fun m hm => h m (List.mem_cons_of_mem n hm))

theorem applyDefs_no_match (e : GraphElemState) (L : List ElementDefinition)
    (h : ∀ m ∈ L, ¬ e.id = m.id) : applyDefs e L = e := by
  induction L with
  | nil => rfl
  | cons n L ih =>
    simp only [applyDefs, if_neg (h n (List.mem_cons_self n L))]
    exact ih (fun m hm => h m (List.mem_cons_of_mem n hm))

theorem applyDefs_eq_single (L : List ElementDefinition)
    (hnd : (L.map (fun n => n.id)).Nodup) (n : ElementDefinition) (hn : n ∈ L)
    (e : GraphElemState) (hid : e.id = n.id) : applyDefs e L = updateElem e n := by
  induction L with
  | nil => exact absurd hn (List.not_mem_nil n)
  | cons m L ih =>
    simp only [List.map_cons, List.nodup_cons] at hnd
    rcases List.mem_cons.mp hn with rfl | hmem
    · simp only [applyDefs, if_pos hid]
      apply applyDefs_no_match
      intro m2 hm2
      rw [updateElem_id, hid]
      intro hh
      exact hnd.1 (hh ▸ List.mem_map_of_mem (fun n => n.id) hm2)
    · have hne : ¬ e.id = m.id := by
        rw [hid]
        intro hh
        exact hnd.1 (hh ▸ List.mem_map_of_mem (fun n => n.id) hmem)
      simp only [applyDefs, if_neg hne]
      exact ih hnd.2 hmem

theorem elemSim_refl (a : GraphElemState) : ElemSim a a :=
  ⟨rfl, rfl, rfl, rfl, rfl, fun _ => Iff.rfl, fun _ => rfl⟩

theorem forall2_map_map {α β : Type} (l : List α) (f h : α → β)
    (R : β → β → Prop) (hp : ∀ a ∈ l, R (f a) (h a)) :
    List.Forall₂ R (l.map f) (l.map h) := by
  induction l with
  | nil => exact List.Forall₂.nil
  | cons x l ih =>
    exact List.Forall₂.cons (hp x (List.mem_cons_self x l))
      (ih (fun a ha => hp a (List.mem_cons_of_mem x ha)))

theorem countP_congr_list {α : Type} (l : List α) (p q : α → Bool)
    (h : ∀ a ∈ l, p a = q a) : l.countP p = l.countP q := by
  induction l with
  | nil => rfl
  | cons x l ih =>
    rw [List.countP_cons, List.countP_cons, h x (List.mem_cons_self x l),
      ih (fun a ha => h a (List.mem_cons_of_mem x ha))]

theorem degreeOf_map (g : Graph) (f : GraphElemState → GraphElemState)
    (hE : ∀ e, (f e).isEdge = e.isEdge) (hs : ∀ e, (f e).source = e.source)
    (ht : ∀ e, (f e).target = e.target) (i : String) :
    degreeOf (g.map f) i = degreeOf g i := by
  unfold degreeOf
  rw [List.countP_map]
  apply countP_congr_list
  intro e _
  simp only [Function.comp, hE e, hs e, ht e]

theorem nameLenOf_congr (d d2 : DataMap)
    (h : dataGet d "name" = dataGet d2 "name") : nameLenOf d = nameLenOf d2 := by
  unfold nameLenOf
  rw [h]

theorem graphChangedElem_of_edge (g : Graph) (e : GraphElemState)
    (h : e.isEdge = true) : graphChangedElem g e = e := by
  simp [graphChangedElem, h]

theorem graphChangedElem_data_node (g : Graph) (e : GraphElemState)
    (h : e.isEdge = false) :
    (graphChangedElem g e).data =
      dataSet (dataSet e.data "degree" (DVal.num (degreeOf g e.id)))
        "nameLength" (DVal.num (nameLenOf e.data)) := by
  simp [graphChangedElem, h]

theorem gc_twice_sim (A U2 : Graph) (hdeg : ∀ i, degreeOf U2 i = degreeOf A i)
    (a : GraphElemState) :
    ElemSim (graphChangedElem U2 (graphChangedElem A a)) (graphChangedElem A a) := by
  by_cases hE : a.isEdge = true
  · rw [graphChangedElem_of_edge A a hE, graphChangedElem_of_edge U2 a hE]
    exact elemSim_refl a
  · have hE2 : a.isEdge = false := by
      cases hb : a.isEdge
      · rfl
      · exact absurd hb hE
    have hbid : (graphChangedElem A a).id = a.id := graphChangedElem_id A a
    have hbief : (graphChangedElem A a).isEdge = false :=
      (graphChangedElem_isEdge A a).trans hE2
    refine ⟨graphChangedElem_id _ _, (graphChangedElem_isEdge _ _).trans rfl,
      graphChangedElem_source _ _, graphChangedElem_target _ _,
      graphChangedElem_selected _ _, ?_, ?_⟩
    · intro c
      rw [graphChangedElem_classes]
    · intro k
      rw [graphChangedElem_data_node U2 _ hbief,
        graphChangedElem_data_node A a hE2, hbid]
      have hname : dataGet
          (dataSet (dataSet a.data "degree" (DVal.num (degreeOf A a.id)))
            "nameLength" (DVal.num (nameLenOf a.data))) "name" =
          dataGet a.data "name" := by
        rw [dataGet_dataSet_ne _ _ _ _ (by decide),
          dataGet_dataSet_ne _ _ _ _ (by decide)]
      by_cases hk1 : k = "nameLength"
      · subst hk1
        rw [dataGet_dataSet_self, dataGet_dataSet_self,
          nameLenOf_congr _ _ hname]
      · by_cases hk2 : k = "degree"
        · subst hk2
          rw [dataGet_dataSet_ne _ _ _ _
              (show ("nameLength" : String) ≠ "degree" by decide),
            dataGet_dataSet_self, hdeg,
            dataGet_dataSet_ne _ _ _ _
              (show ("nameLength" : String) ≠ "degree" by decide),
            dataGet_dataSet_self]
        · rw [dataGet_dataSet_ne _ _ _ _ (fun hh => hk1 hh.symm),
            dataGet_dataSet_ne _ _ _ _ (fun hh => hk2 hh.symm)]

/-- Re-running the update branch (followed by metric recomputation) on an
element whose classes and data already absorb the record leaves the element
observationally unchanged. -/
theorem elemSim_reupdate (A U2 : Graph) (hdeg : ∀ i, degreeOf U2 i = degreeOf A i)
    (a : GraphElemState) (n : ElementDefinition)
    (hcls1 : ∀ c ∈ n.classes, c ∈ a.classes)
    (hcls2 : ∀ c ∈ a.classes, c ∈ n.classes ∨ c = "expanded" ∨ c = "pinned")
    (habs : ∀ k v, lookAssoc n.data k = some v → dataGet a.data k = some v) :
    ElemSim (graphChangedElem U2 (updateElem (graphChangedElem A a) n))
      (graphChangedElem A a) := by
  refine ⟨?_, ?_, ?_, ?_, ?_, ?_, ?_⟩
  · rw [graphChangedElem_id, updateElem_id]
  · rw [graphChangedElem_isEdge, updateElem_isEdge]
  · rw [graphChangedElem_source, updateElem_source]
  · rw [graphChangedElem_target, updateElem_target]
  · rw [graphChangedElem_selected, updateElem_selected]
  · intro c
    rw [graphChangedElem_classes, mem_updateElem_classes, graphChangedElem_classes]
    constructor
    · rintro (hc | ⟨rfl, hc⟩ | ⟨rfl, hc⟩)
      · exact hcls1 c hc
      · exact hc
      · exact hc
    · intro hc
      rcases hcls2 c hc with h1 | h2 | h3
      · exact Or.inl h1
      · subst h2
        exact Or.inr (Or.inl ⟨rfl, hc⟩)
      · subst h3
        exact Or.inr (Or.inr ⟨rfl, hc⟩)
  · intro k
    by_cases hE : a.isEdge = true
    · rw [graphChangedElem_of_edge A a hE]
      rw [graphChangedElem_of_edge U2 (updateElem a n)
        ((updateElem_isEdge a n).trans hE)]
      rw [updateElem_data, dataGet_dataUpdate]
      unfold jsMergedGet
      cases hl : lookAssoc n.data k with
      | some v => exact (habs k v hl).symm
      | none => rfl
    · have hE2 : a.isEdge = false := by
        cases hb : a.isEdge
        · rfl
        · exact absurd hb hE
      have hbE : (graphChangedElem A a).isEdge = false :=
        (graphChangedElem_isEdge A a).trans hE2
      have huE : (updateElem (graphChangedElem A a) n).isEdge = false :=
        (updateElem_isEdge _ _).trans hbE
      rw [graphChangedElem_data_node U2 _ huE]
      have hbdata := graphChangedElem_data_node A a hE2
      have hbname : dataGet (graphChangedElem A a).data "name" =
          dataGet a.data "name" := by
        rw [hbdata, dataGet_dataSet_ne _ _ _ _ (by decide),
          dataGet_dataSet_ne _ _ _ _ (by decide)]
      have hudata : ∀ k2, dataGet (updateElem (graphChangedElem A a) n).data k2 =
          jsMergedGet n.data (graphChangedElem A a).data k2 := by
        intro k2
        rw [updateElem_data, dataGet_dataUpdate]
      have huname : dataGet (updateElem (graphChangedElem A a) n).data "name" =
          dataGet a.data "name" := by
        rw [hudata]
        unfold jsMergedGet
        cases hl : lookAssoc n.data "name" with
        | some v => exact (habs _ v hl).symm
        | none => exact hbname
      by_cases hk1 : k = "nameLength"
      · subst hk1
        rw [dataGet_dataSet_self, hbdata, dataGet_dataSet_self,
          nameLenOf_congr _ _ huname]
      · by_cases hk2 : k = "degree"
        · subst hk2
          rw [dataGet_dataSet_ne _ _ _ _
              (show ("nameLength" : String) ≠ "degree" by decide),
            dataGet_dataSet_self, updateElem_id, graphChangedElem_id, hdeg,
            hbdata,
            dataGet_dataSet_ne _ _ _ _
              (show ("nameLength" : String) ≠ "degree" by decide),
            dataGet_dataSet_self]
        · rw [dataGet_dataSet_ne _ _ _ _ (fun hh => hk1 hh.symm),
            dataGet_dataSet_ne _ _ _ _ (fun hh => hk2 hh.symm),
            hudata]
          unfold jsMergedGet
          cases hl : lookAssoc n.data k with
          | some v =>
            rw [hbdata, dataGet_dataSet_ne _ _ _ _ (fun hh => hk1 hh.symm),
              dataGet_dataSet_ne _ _ _ _ (fun hh => hk2 hh.symm)]
            exact (habs k v hl).symm
          | none => rfl

theorem filter_ids_nodup (L : List ElementDefinition) (p : ElementDefinition → Bool)
    (h : (L.map (fun n => n.id)).Nodup) :
    ((L.filter p).map (fun n => n.id)).Nodup :=
  ((List.filter_sublist L).map (fun n => n.id)).nodup h

theorem nodup_map_inj_ids (L : List ElementDefinition)
    (h : (L.map (fun n => n.id)).Nodup) :
    ∀ x ∈ L, ∀ y ∈ L, x.id = y.id → x = y := by
  induction L with
  | nil =>
    intro x hx
    exact absurd hx (List.not_mem_nil x)
  | cons m L ih =>
    simp only [List.map_cons, List.nodup_cons] at h
    intro x hx y hy hxy
    rcases List.mem_cons.mp hx with rfl | hx2
    · rcases List.mem_cons.mp hy with rfl | hy2
      · rfl
      · exact absurd (hxy.symm ▸ List.mem_map_of_mem (fun n => n.id) hy2) h.1
    · rcases List.mem_cons.mp hy with rfl | hy2
      · exact absurd (hxy ▸ List.mem_map_of_mem (fun n => n.id) hx2) h.1
      · exact ih h.2 x hx2 y hy2 hxy

theorem byIdPresent_mergeU (g : Graph) (L : List ElementDefinition) (i : String) :
    byIdPresent (mergeU g L) i = byIdPresent g i :=
  byIdPresent_map g _ (fun e => applyDefs_id e L) i

theorem mem_mergeS (g : Graph) (L : List ElementDefinition) (n : ElementDefinition)
    (hn : n ∈ mergeS g L) : n ∈ L ∧ byIdPresent g n.id = false := by
  unfold mergeS at hn
  refine ⟨List.mem_of_mem_filter hn, ?_⟩
  have := List.of_mem_filter hn
  simpa using this

/-- The merged graph decomposed: updated elements, then the added node records,
then the added edge records. -/
theorem mergeToGraph_decomp (g : Graph) (L : List ElementDefinition)
    (hids : (L.map (fun n => n.id)).Nodup) :
    mergeToGraph g L = onGraphChanged (mergeAOf g L) := by
  rw [mergeToGraph_eq, mergeScan_fst, mergeScan_snd]
  congr 1
  show addDefs (mergeU g L) (mergeS g L) = mergeAOf g L
  unfold addDefs
  rw [addDefsSeq_nodes ((mergeS g L).filter defIsNode) (mergeU g L)
    (fun n hn => List.of_mem_filter hn)
    (fun n hn => by
      rw [byIdPresent_mergeU]
      exact (mem_mergeS g L n (List.mem_of_mem_filter hn)).2)
    (filter_ids_nodup _ _ (filter_ids_nodup _ _ hids))]
  rw [addDefsSeq_edges ((mergeS g L).filter (fun n => !defIsNode n))
    (mergeU g L ++ ((mergeS g L).filter defIsNode).map defToElem)
    (fun n hn => by
      have := List.of_mem_filter hn
      simpa using this)
    (fun n hn => by
      rw [byIdPresent_append, byIdPresent_mergeU,
        (mem_mergeS g L n (List.mem_of_mem_filter hn)).2]
      have hz : byIdPresent (((mergeS g L).filter defIsNode).map defToElem) n.id
          = false := by
        rw [byIdPresent_map_defToElem]
        cases hb : ((mergeS g L).filter defIsNode).any (fun m => m.id == n.id) with
        | false => rfl
        | true =>
          exfalso
          rw [List.any_eq_true] at hb
          obtain ⟨m, hm, hmid⟩ := hb
          rw [beq_iff_eq] at hmid
          have hmL : m ∈ L := (mem_mergeS g L m (List.mem_of_mem_filter hm)).1
          have hnL : n ∈ L := (mem_mergeS g L n (List.mem_of_mem_filter hn)).1
          have hmn : m = n := nodup_map_inj_ids L hids m hmL n hnL hmid
          subst hmn
          have h1 := List.of_mem_filter hm
          have h2 := List.of_mem_filter hn
          rw [h1] at h2
          simp at h2
      rw [hz]
      rfl)
    (filter_ids_nodup _ _ (filter_ids_nodup _ _ hids))]
  simp only [mergeAOf, stage1Of, edgeAddsOf, nodeAddsOf, List.append_assoc]

theorem edgeAddsOf_all_edges (g : Graph) (L : List ElementDefinition) :
    ∀ e ∈ edgeAddsOf g L, e.isEdge = true := by
  intro e he
  rw [edgeAddsOf] at he
  obtain ⟨m, hm, rfl⟩ := List.mem_map.mp he
  apply defToElem_isEdge_true
  have := List.of_mem_filter (List.mem_of_mem_filter hm)
  simpa using this

/-- Re-merging the same record list adds nothing: the scan updates every record
in place and every staged record is skipped again by the add phase. -/
theorem mergeToGraph_twice_eq (g : Graph) (L : List ElementDefinition)
    (hids : (L.map (fun n => n.id)).Nodup) :
    mergeToGraph (mergeToGraph g L) L =
      onGraphChanged ((mergeToGraph g L).map (fun e => applyDefs e L)) := by
  conv_lhs => rw [mergeToGraph_eq]
  rw [mergeScan_fst, mergeScan_snd]
  congr 1
  have hGA : ∀ i, byIdPresent (mergeToGraph g L) i =
      byIdPresent (mergeAOf g L) i := by
    intro i
    rw [mergeToGraph_decomp g L hids, byIdPresent_onGraphChanged]
  have key : ∀ n ∈ L.filter (fun n => !byIdPresent (mergeToGraph g L) n.id),
      defIsNode n = false ∧
      canAddDef ((mergeToGraph g L).map (fun e => applyDefs e L)) n = false := by
    intro n hn
    have hnL : n ∈ L := List.mem_of_mem_filter hn
    have hnp : byIdPresent (mergeToGraph g L) n.id = false := by
      have := List.of_mem_filter hn
      simpa using this
    have hnpA : byIdPresent (mergeAOf g L) n.id = false := by
      rw [← hGA]
      exact hnp
    have hnpS1 : byIdPresent (stage1Of g L) n.id = false := by
      rw [mergeAOf, byIdPresent_append] at hnpA
      exact (Bool.or_eq_false_iff.mp hnpA).1
    have hnpU : byIdPresent (mergeU g L) n.id = false := by
      rw [stage1Of, byIdPresent_append] at hnpS1
      exact (Bool.or_eq_false_iff.mp hnpS1).1
    have hnpN : byIdPresent (nodeAddsOf g L) n.id = false := by
      rw [stage1Of, byIdPresent_append] at hnpS1
      exact (Bool.or_eq_false_iff.mp hnpS1).2
    have hnpg : byIdPresent g n.id = false := by
      rw [← byIdPresent_mergeU g L]
      exact hnpU
    have hnS : n ∈ mergeS g L := by
      unfold mergeS
      rw [List.mem_filter]
      exact ⟨hnL, by rw [hnpg]; rfl⟩
    have hnode : defIsNode n = false := by
      cases hd : defIsNode n with
      | false => rfl
      | true =>
        exfalso
        have hmem : n ∈ (mergeS g L).filter defIsNode :=
          List.mem_filter.mpr ⟨hnS, hd⟩
        have hpres : byIdPresent (nodeAddsOf g L) n.id = true := by
          rw [nodeAddsOf, byIdPresent_map_defToElem, List.any_eq_true]
          exact ⟨n, hmem, by simp⟩
        rw [hpres] at hnpN
        exact Bool.noConfusion hnpN
    have hnpE : byIdPresent (edgeAddsOf g L) n.id = false := by
      rw [mergeAOf, byIdPresent_append] at hnpA
      exact (Bool.or_eq_false_iff.mp hnpA).2
    have hep : (endpointOk (stage1Of g L) n.source &&
        endpointOk (stage1Of g L) n.target) = false := by
      cases hd : (endpointOk (stage1Of g L) n.source &&
          endpointOk (stage1Of g L) n.target) with
      | false => rfl
      | true =>
        exfalso
        have hmem2 : n ∈ ((mergeS g L).filter (fun m => !defIsNode m)).filter
            (fun m => endpointOk (stage1Of g L) m.source &&
              endpointOk (stage1Of g L) m.target) := by
          refine List.mem_filter.mpr ⟨List.mem_filter.mpr ⟨hnS, ?_⟩, hd⟩
          rw [hnode]
          rfl
        have hpres : byIdPresent (edgeAddsOf g L) n.id = true := by
          rw [edgeAddsOf, byIdPresent_map_defToElem, List.any_eq_true]
          exact ⟨n, hmem2, by simp⟩
        rw [hpres] at hnpE
        exact Bool.noConfusion hnpE
    refine ⟨hnode, ?_⟩
    have hepU2 : ∀ o, endpointOk
        ((mergeToGraph g L).map (fun e => applyDefs e L)) o =
        endpointOk (stage1Of g L) o := by
      intro o
      cases o with
      | none => rfl
      | some s =>
        simp only [endpointOk]
        rw [isNodeIn_map _ _ (fun e => applyDefs_id e L)
          (fun e => applyDefs_isEdge e L)]
        rw [mergeToGraph_decomp g L hids]
        rw [show onGraphChanged (mergeAOf g L) =
          (mergeAOf g L).map (graphChangedElem (mergeAOf g L)) from rfl]
        rw [isNodeIn_map _ _ (graphChangedElem_id _) (graphChangedElem_isEdge _)]
        rw [mergeAOf]
        exact isNodeIn_append_edges _ _ (edgeAddsOf_all_edges g L) s
    unfold canAddDef
    rw [hnode, hepU2, hepU2, hep]
    simp
  unfold addDefs
  have hfn : ((L.filter (fun n => !byIdPresent (mergeToGraph g L) n.id)).filter
      defIsNode) = [] := by
    rw [List.filter_eq_nil_iff]
    intro n hn
    rw [(key n hn).1]
    simp
  have hfe : ((L.filter (fun n => !byIdPresent (mergeToGraph g L) n.id)).filter
      (fun n => !defIsNode n)) =
      L.filter (fun n => !byIdPresent (mergeToGraph g L) n.id) := by
    rw [List.filter_eq_self]
    intro n hn
    rw [(key n hn).1]
    rfl
  rw [hfn, show addDefsSeq ((mergeToGraph g L).map fun e => applyDefs e L) [] =
    ((mergeToGraph g L).map fun e => applyDefs e L) from rfl, hfe]
  exact addDefsSeq_skip _ _ (fun n hn => (key n hn).2)

theorem merge_pointwise (A U2 : Graph) (L : List ElementDefinition)
    (hids : (L.map (fun n => n.id)).Nodup)
    (hkeys : ∀ n ∈ L, (n.data.map Prod.fst).Nodup)
    (hdeg : ∀ i, degreeOf U2 i = degreeOf A i)
    (a : GraphElemState)
    (hprov : ∀ n ∈ L, n.id = a.id →
      ((∃ e0, a = updateElem e0 n) ∨ a = defToElem n)) :
    ElemSim (graphChangedElem U2 (applyDefs (graphChangedElem A a) L))
      (graphChangedElem A a) := by
  by_cases hm : ∃ n ∈ L, n.id = a.id
  · obtain ⟨n, hnL, hnid⟩ := hm
    rw [applyDefs_eq_single L hids n hnL _
      (by rw [graphChangedElem_id]; exact hnid.symm)]
    rcases hprov n hnL hnid with ⟨e0, rfl⟩ | rfl
    · apply elemSim_reupdate A U2 hdeg _ n
      · intro c hc
        rw [mem_updateElem_classes]
        exact Or.inl hc
      · intro c hc
        rw [mem_updateElem_classes] at hc
        rcases hc with h1 | ⟨rfl, h2⟩ | ⟨rfl, h3⟩
        · exact Or.inl h1
        · exact Or.inr (Or.inl rfl)
        · exact Or.inr (Or.inr rfl)
      · intro k v hl
        rw [updateElem_data, dataGet_dataUpdate]
        unfold jsMergedGet
        rw [hl]
    · apply elemSim_reupdate A U2 hdeg _ n
      · intro c hc
        exact hc
      · intro c hc
        exact Or.inl hc
      · intro k v hl
        show dataGet n.data k = some v
        rw [← lookAssoc_eq_dataGet_of_nodup n.data (hkeys n hnL)]
        exact hl
  · push_neg at hm
    rw [applyDefs_no_match]
    · exact gc_twice_sim A U2 hdeg a
    · intro m hmL
      rw [graphChangedElem_id]
      exact fun hh => hm m hmL hh.symm

theorem merge_idem_graph (A : Graph) (L : List ElementDefinition)
    (hids : (L.map (fun n => n.id)).Nodup)
    (hkeys : ∀ n ∈ L, (n.data.map Prod.fst).Nodup)
    (hA : ∀ a ∈ A, ∀ n ∈ L, n.id = a.id →
      ((∃ e0, a = updateElem e0 n) ∨ a = defToElem n)) :
    List.Forall₂ ElemSim
      (onGraphChanged ((onGraphChanged A).map (fun e => applyDefs e L)))
      (onGraphChanged A) := by
  simp only [onGraphChanged, List.map_map]
  apply forall2_map_map
  intro a ha
  simp only [Function.comp_apply]
  refine merge_pointwise A _ L hids hkeys ?_ a ?_
  · intro i
    refine degreeOf_map A _ ?_ ?_ ?_ i
    · intro e
      simp only [Function.comp_apply]
      rw [applyDefs_isEdge, graphChangedElem_isEdge]
    · intro e
      simp only [Function.comp_apply]
      rw [applyDefs_source, graphChangedElem_source]
    · intro e
      simp only [Function.comp_apply]
      rw [applyDefs_target, graphChangedElem_target]
  · intro n hnL hnid
    exact hA a ha n hnL hnid

/-- C4: merge idempotence. Merging the same record list twice in a row (records
with pairwise distinct ids and duplicate-free data keys) leaves every element
observationally identical to merging it once: same identity, group, endpoints,
selection, tag set and data fields. -/
theorem merge_idempotent (g : Graph) (L : List ElementDefinition)
    (hids : (L.map (fun n => n.id)).Nodup)
    (hkeys : ∀ n ∈ L, (n.data.map Prod.fst).Nodup) :
    List.Forall₂ ElemSim (mergeToGraph (mergeToGraph g L) L) (mergeToGraph g L) := by
  rw [mergeToGraph_twice_eq g L hids, mergeToGraph_decomp g L hids]
  apply merge_idem_graph _ L hids hkeys
  intro a ha n hnL hnid
  simp only [mergeAOf, stage1Of, List.append_assoc, List.mem_append, mergeU,
    nodeAddsOf, edgeAddsOf, List.mem_map] at ha
  rcases ha with ⟨e0, he0, rfl⟩ | ⟨m, hm, rfl⟩ | ⟨m, hm, rfl⟩
  · left
    refine ⟨e0, ?_⟩
    exact applyDefs_eq_single L hids n hnL e0
      (by rw [hnid, applyDefs_id])
  · right
    have hmL : m ∈ L := (mem_mergeS g L m (List.mem_of_mem_filter hm)).1
    have hmn : m = n := nodup_map_inj_ids L hids m hmL n hnL
      (by rw [hnid, defToElem_id])
    rw [hmn]
  · right
    have hmL : m ∈ L :=
      (mem_mergeS g L m (List.mem_of_mem_filter (List.mem_of_mem_filter hm))).1
    have hmn : m = n := nodup_map_inj_ids L hids m hmL n hnL
      (by rw [hnid, defToElem_id])
    rw [hmn]

theorem merge_idempotent_witness :
    (([recW1, recWE].map (fun n => n.id)).Nodup ∧
      ∀ n ∈ [recW1, recWE], (n.data.map Prod.fst).Nodup) ∧
    List.Forall₂ ElemSim
      (mergeToGraph (mergeToGraph [] [recW1, recWE]) [recW1, recWE])
      (mergeToGraph [] [recW1, recWE]) :=
  ⟨⟨by decide, by decide⟩,
    merge_idempotent [] [recW1, recWE] (by decide) (by decide)⟩

